import Mathlib

set_option maxHeartbeats 1000000
set_option maxRecDepth 4000

/-!
Shallow embedding of `extract_and_upload.py` (repository cjp6ejo3/allmysteven).

Strings are modelled as `List Char` (`Str`); Python's implicit character
ordering is by code point, modelled through `Char.toNat`.  The two regular
expressions of the program are embedded through a small backtracking engine
(`mrun`) whose nodes correspond one-to-one to the constructs appearing in the
patterns; `reSearch` models `re.search` (leftmost match) and `finditer`
models `re.finditer` (repeated leftmost non-overlapping matches).
Side effects (the HTTP GET, the 0.5s sleep, the cache save, the report
writes) are recorded in an explicit event trace.
-/

abbrev Str := List Char

/-- Python regex `\s` for the ASCII whitespace characters (the inputs of this
program contain no exotic Unicode whitespace). -/
def isWsC (c : Char) : Bool :=
  c = ' ' || c = '\t' || c = '\n' || c = '\r' || c = '\x0b' || c = '\x0c'

/-- Python regex `\d` (ASCII digits). -/
def isDigitC (c : Char) : Bool :=
  48 ≤ c.toNat && c.toNat ≤ 57

/-- Python string `<` : lexicographic comparison by code point, a proper
prefix is smaller. -/
def lexLt : Str → Str → Bool
  | [], [] => false
  | [], _ :: _ => true
  | _ :: _, [] => false
  | a :: as, b :: bs =>
    if a.toNat < b.toNat then true
    else if b.toNat < a.toNat then false
    else lexLt as bs

/-- Python string `<=`. -/
def lexLe (s t : Str) : Bool := !(lexLt t s)

/-- Does `n` occur as a prefix of `s`? -/
def prefixEq : Str → Str → Bool
  | [], _ => true
  | _ :: _, [] => false
  | a :: as, b :: bs => a == b && prefixEq as bs

/-- Python `n in s` (substring containment). -/
def hasSub (n : Str) : Str → Bool
  | [] => n.isEmpty
  | s@(_ :: t) => prefixEq n s || hasSub n t

/-- Python `str.strip()` (drop whitespace at both ends). -/
def stripChars (s : Str) : Str :=
  ((s.dropWhile isWsC).reverse.dropWhile isWsC).reverse

/-- Python `str.split("\n")`. -/
def splitNl : Str → List Str
  | [] => [[]]
  | c :: t =>
    match splitNl t with
    | [] => [[]]
    | l :: ls => if c = '\n' then [] :: l :: ls else (c :: l) :: ls

/-- Python `"\n".join(lines)`. -/
def joinNl : List Str → Str
  | [] => []
  | [l] => l
  | l :: ls => l ++ '\n' :: joinNl ls

/-- Split a string at the first occurrence of character `c` (used to model
Python `str.split("\t", 2)`). -/
def splitFirst (c : Char) : Str → Option (Str × Str)
  | [] => none
  | a :: t =>
    if a = c then some ([], t)
    else
      match splitFirst c t with
      | none => none
      | some (x, y) => some (a :: x, y)

/-- First success of `f` over the list, in order.  Used for quantifier
backtracking in the regex engine. -/
def firstSome {β R : Type} : List β → (β → Option R) → Option R
  | [], _ => none
  | b :: bs, f =>
    match f b with
    | some r => some r
    | none => firstSome bs f

/-! ### A small backtracking regex engine

Only the constructs occurring in the program's three patterns are present:
literals, a single character of a class, greedy `\s*`, captured greedy `(\d+)`,
captured lazy `(.+?)`, uncaptured lazy `[\s\S]*?`, a captured fixed-shape
sequence (for the date `([\d]{4}\.[\d]{2}\.[\d]{2})`), sequencing,
alternation, lookahead `(?=...)`, `\Z` and `$`. -/

inductive RE where
  | lit : Str → RE
  | cls : (Char → Bool) → RE
  | wsStar : RE
  | grpPlusGreedy : (Char → Bool) → RE
  | grpPlusLazy : (Char → Bool) → RE
  | grpFixed : List (Char → Bool) → RE
  | starLazy : (Char → Bool) → RE
  | seq : RE → RE → RE
  | alt : RE → RE → RE
  | look : RE → RE
  | zEnd : RE
  | dollar : RE

/-- Backtracking matcher in continuation-passing style.  The continuation
receives the rest of the input and the captured groups so far; quantifiers
enumerate candidate lengths in the greedy or lazy order, which reproduces
Python's backtracking for these patterns. -/
def mrun : RE → Str → (Str → List Str → Option (List Str × Str)) → List Str →
    Option (List Str × Str)
  | .lit L, s, k, gs => if prefixEq L s then k (s.drop L.length) gs else none
  | .cls c, s, k, gs =>
    match s with
    | [] => none
    | a :: t => if c a then k t gs else none
  | .wsStar, s, k, gs =>
    firstSome ((List.range ((s.takeWhile isWsC).length + 1)).reverse)
      (fun i => k (s.drop i) gs)
  | .grpPlusGreedy c, s, k, gs =>
    firstSome ((List.range' 1 (s.takeWhile c).length).reverse)
      (fun i => k (s.drop i) (gs ++ [s.take i]))
  | .grpPlusLazy c, s, k, gs =>
    firstSome (List.range' 1 (s.takeWhile c).length)
      (fun i => k (s.drop i) (gs ++ [s.take i]))
  | .grpFixed fs, s, k, gs =>
    if fs.length ≤ s.length && ((s.take fs.length).zip fs).all (fun p => p.2 p.1)
    then k (s.drop fs.length) (gs ++ [s.take fs.length]) else none
  | .starLazy c, s, k, gs =>
    firstSome (List.range ((s.takeWhile c).length + 1)) (fun i => k (s.drop i) gs)
  | .seq r1 r2, s, k, gs => mrun r1 s (fun s' gs' => mrun r2 s' k gs') gs
  | .alt r1 r2, s, k, gs =>
    match mrun r1 s k gs with
    | some r => some r
    | none => mrun r2 s k gs
  | .look r, s, k, gs =>
    match mrun r s (fun s' gs' => some (gs', s')) [] with
    | some _ => k s gs
    | none => none
  | .zEnd, s, k, gs => if s.isEmpty then k s gs else none
  | .dollar, s, k, gs => if s.isEmpty || s == ['\n'] then k s gs else none

/-- Python `re.search`: try the pattern at each start position from the left,
return the captured groups and the input remaining after the match. -/
def reSearch (r : RE) : Str → Option (List Str × Str)
  | [] => mrun r [] (fun rest gs => some (gs, rest)) []
  | s@(_ :: t) =>
    match mrun r s (fun rest gs => some (gs, rest)) [] with
    | some res => some res
    | none => reSearch r t

def finditerAux (r : RE) : Nat → Str → List (List Str)
  | 0, _ => []
  | fuel + 1, s =>
    match reSearch r s with
    | none => []
    | some (gs, rest) =>
      gs :: (if rest.length < s.length then finditerAux r fuel rest else [])

/-- Python `re.finditer`: leftmost matches, each next search resuming after
the end of the previous match (the program's item pattern never matches the
empty string, so the guard on the length never fires on its inputs). -/
def finditer (r : RE) (s : Str) : List (List Str) :=
  finditerAux r (s.length + 1) s

/-- Sequencing of a list of regex nodes. -/
def cat : List RE → RE
  | [] => .lit []
  | [r] => r
  | r :: rs => .seq r (cat rs)

def anyCls : Char → Bool := fun _ => true

def noNlCls : Char → Bool := fun c => !(c == '\n')

def dotCls : Char → Bool := fun c => c == '.'

/-! ### Data model

A `Prize` is one parsed item; `expiry`/`used` model dictionary keys that are
absent until enrichment (`none` = key missing).  A `SourceRec` is one file's
parsed section.  The cache is an insertion-ordered association list, the
model of a Python `dict` from URL to the pair (expiry, status). -/

structure Prize where
  num : Str
  profile : Str
  title : Str
  timeStr : Str
  link : Str
  expiry : Option Str := none
  used : Option Str := none
deriving DecidableEq

structure SourceRec where
  file : Str
  send_date : Str
  prizes : List Prize
deriving DecidableEq

abbrev Cache := List (Str × Str × Str)

/-- Python `cache[url]` lookup (`url in cache` is `(dictGet c u).isSome`). -/
def dictGet (m : Cache) (k : Str) : Option (Str × Str) :=
  match m with
  | [] => none
  | e :: t => if e.1 = k then some e.2 else dictGet t k

/-- Python `cache[url] = v`: overwrite in place if present, append otherwise. -/
def dictSet (m : Cache) (k : Str) (v : Str × Str) : Cache :=
  if m.any (fun e => e.1 = k) then
    m.map (fun e => if e.1 = k then (k, v) else e)
  else m ++ [(k, v)]

/-- Events recorded by the effectful parts of the program. -/
inductive Ev where
  | net : Str → Ev
  | sleep : Ev
  | save : Ev
  | writeHtml : Ev
  | writeCoupon : Ev
  | writeTxt : Ev
deriving DecidableEq

/-! ### Remote metadata fetcher (`fetch_voucher_info`, lines 29-47)

The network is abstracted by `net : Str → Option Str`, the body of the HTTP
response for a URL (`none` models any raised network error).  The scan of the
body — the expiry regex and the two used-stamp substrings — is embedded
directly. -/

def expiryRE : RE :=
  cat [.lit "兌換期間至".data, .starLazy anyCls,
       .grpFixed [isDigitC, isDigitC, isDigitC, isDigitC, dotCls,
                  isDigitC, isDigitC, dotCls, isDigitC, isDigitC]]

def fetch_voucher_info (net : Str → Option Str) (url : Str) :
    (Option Str × Str) × List Ev :=
  if hasSub "txp.rs".data url then
    match net url with
    | some html =>
      let expiry : Option Str :=
        match reSearch expiryRE html with
        | some (g :: _, _) => some (stripChars g)
        | _ => none
      let used : Str :=
        if hasSub "usededn".data html || hasSub "StatusOverlayBg".data html
        then "已兌換".data else []
      ((expiry, used), [Ev.net url])
    | none => ((none, []), [Ev.net url])
  else ((none, []), [])

/-! ### Cache store (`load_expiry_cache` lines 50-64, `save_expiry_cache`
lines 67-76)

The file content is passed as a value; a missing or unreadable file is the
empty mapping in the caller. -/

def parseCacheLine (line : Str) : Str × Str × Str :=
  match splitFirst '\t' line with
  | none => ([], [], [])
  | some (u, rest) =>
    match splitFirst '\t' rest with
    | none => (stripChars u, stripChars rest, [])
    | some (e, st) => (stripChars u, stripChars e, stripChars st)

def load_expiry_cache (content : Str) : Cache :=
  (splitNl (stripChars content)).foldl
    (fun m line =>
      if '\t' ∈ line then dictSet m (parseCacheLine line).1 (parseCacheLine line).2
      else m) []

def renderCacheLine (u : Str) (v : Str × Str) : Str :=
  u ++ '\t' :: v.1 ++ (if v.2 = [] then [] else '\t' :: v.2)

/-- Stable insertion: `x` is placed after every already-present element whose
key is less than or equal to its own.  Processing a list left to right with
this insertion is a stable sort, the behaviour of Python's `list.sort` /
`sorted` with a key function. -/
def insertStable {α : Type} (le : α → α → Bool) (x : α) : List α → List α
  | [] => [x]
  | y :: ys => if le y x then y :: insertStable le x ys else x :: y :: ys

def stableSortBy {α : Type} (le : α → α → Bool) (l : List α) : List α :=
  l.foldl (fun acc x => insertStable le x acc) []

def save_expiry_cache (m : Cache) : Str :=
  joinNl ((stableSortBy lexLe (m.map (·.1))).map
    (fun u => renderCacheLine u ((dictGet m u).getD ([], []))))

/-! ### Collection enrichment (`enrich_prizes_with_expiry`, lines 79-101) -/

/-- Python `expiry if expiry else ""`: a missing or empty value becomes the
empty string. -/
def pyTruthy (s : Option Str) : Str :=
  match s with
  | some v => if v = [] then [] else v
  | none => []

def enrichStep (net : Str → Option Str) (force : Bool)
    (st : Cache × Bool × List Ev) (p : Prize) : (Cache × Bool × List Ev) × Prize :=
  match (if force then none else dictGet st.1 (stripChars p.link)) with
  | some (e, s) => (st, { p with expiry := some e, used := some s })
  | none =>
    ((dictSet st.1 (stripChars p.link)
        (pyTruthy (fetch_voucher_info net (stripChars p.link)).1.1,
         (fetch_voucher_info net (stripChars p.link)).1.2),
      true,
      st.2.2 ++ (fetch_voucher_info net (stripChars p.link)).2 ++ [Ev.sleep]),
     { p with
        expiry := some (pyTruthy (fetch_voucher_info net (stripChars p.link)).1.1),
        used := some (fetch_voucher_info net (stripChars p.link)).1.2 })

def enrichPrizes (net : Str → Option Str) (force : Bool) :
    Cache × Bool × List Ev → List Prize → (Cache × Bool × List Ev) × List Prize
  | st, [] => (st, [])
  | st, p :: ps =>
    let r := enrichStep net force st p
    let rs := enrichPrizes net force r.1 ps
    (rs.1, r.2 :: rs.2)

def enrichRecs (net : Str → Option Str) (force : Bool) :
    Cache × Bool × List Ev → List SourceRec →
    (Cache × Bool × List Ev) × List SourceRec
  | st, [] => (st, [])
  | st, rec :: recs =>
    let r := enrichPrizes net force st rec.prizes
    let rs := enrichRecs net force r.1 recs
    (rs.1, { rec with prizes := r.2 } :: rs.2)

/-- The enrichment batch: load the cache (or start empty under force
refresh), annotate every prize, and save the cache at the end when anything
was added.  Returns the annotated records, the final in-memory mapping and
the event trace. -/
def enrich_prizes_with_expiry (net : Str → Option Str) (cacheFile : Str)
    (entries : List SourceRec) (force : Bool) :
    List SourceRec × Cache × List Ev :=
  ((enrichRecs net force
      ((if force then [] else load_expiry_cache cacheFile), false, []) entries).2,
   (enrichRecs net force
      ((if force then [] else load_expiry_cache cacheFile), false, []) entries).1.1,
   if (enrichRecs net force
      ((if force then [] else load_expiry_cache cacheFile), false, []) entries).1.2.1
   then (enrichRecs net force
      ((if force then [] else load_expiry_cache cacheFile), false, []) entries).1.2.2
      ++ [Ev.save]
   else (enrichRecs net force
      ((if force then [] else load_expiry_cache cacheFile), false, []) entries).1.2.2)

/-! ### Block parser (`parse_telegram_section`, lines 104-134) -/

def markerS : Str := "📱 發送到 Telegram 的獎品 📱".data

def endMarkerS : Str := "--- 批次流程結束 ---".data

/-- Python `content[content.find(n):]` for the first occurrence of `n`
(callers guard on `hasSub n`). -/
def fromSub (n : Str) : Str → Str
  | [] => []
  | s@(_ :: t) => if prefixEq n s then s else fromSub n t

/-- Python `block[:block.find(n)]` when `n` occurs, the whole string
otherwise (exactly the code's conditional truncation). -/
def beforeSub (n : Str) : Str → Str
  | [] => []
  | s@(c :: t) => if prefixEq n s then [] else c :: beforeSub n t

def sendDateRE : RE :=
  cat [.lit "發送日期:".data, .wsStar, .grpPlusLazy noNlCls,
       .alt (.lit "\n".data) .dollar]

def itemRE : RE :=
  cat [.lit "[".data, .wsStar, .grpPlusGreedy isDigitC, .wsStar, .lit "]".data,
       .wsStar, .lit "Profile".data, .wsStar, .grpPlusGreedy isDigitC, .wsStar,
       .lit "\n".data, .wsStar, .lit "標題:".data, .wsStar, .grpPlusLazy anyCls,
       .wsStar, .lit "\n".data, .wsStar, .lit "時間:".data, .wsStar,
       .grpPlusLazy anyCls, .wsStar, .lit "\n".data, .wsStar, .lit "連結:".data,
       .wsStar, .grpPlusLazy anyCls,
       .look (.alt (cat [.lit "\n".data, .wsStar, .lit "[".data, .wsStar, .cls isDigitC])
         (.alt (.lit "\n\n".data) (.alt (.lit "\n===".data) .zEnd)))]

def parsePrizes (block : Str) : List Prize :=
  (finditer itemRE block).filterMap (fun gs =>
    match gs with
    | [num, profile, title, t, link] =>
      some ⟨stripChars num, stripChars profile, stripChars title,
            stripChars t, stripChars link, none, none⟩
    | _ => none)

/-- Returns `none` exactly when the section marker is absent (the code's
`return None, []`); otherwise the send date (a string, possibly empty) and
the item list. -/
def parse_telegram_section (content : Str) : Option (Str × List Prize) :=
  if hasSub markerS content then
    some
      (match reSearch sendDateRE (beforeSub endMarkerS (fromSub markerS content)) with
        | some (g :: _, _) => stripChars g
        | _ => [],
       parsePrizes (beforeSub endMarkerS (fromSub markerS content)))
  else none

/-! ### Collection (`collect_all_prizes`, lines 137-155) and the renderers'
shared dedup logic (`build_html` lines 160-168, `build_txt_url_list` lines
335-345).  The file system is a list of (name, content) pairs in the sorted
glob order; `none` content models a read failure. -/

def collect_all_prizes (files : List (Str × Option Str)) : List SourceRec :=
  files.foldl
    (fun acc f =>
      match f.2 with
      | none => acc
      | some content =>
        match parse_telegram_section content with
        | none => acc
        | some (sd, ps) => acc ++ [⟨f.1, sd, ps⟩]) []

/-- A deduplicated entry of `build_html`: the prize together with the send
date of the file that produced it (`{**p, "send_date": send_date}`). -/
structure Flat where
  p : Prize
  send_date : Str
deriving DecidableEq

/-- The dedup-and-flatten loop of `build_html` (lines 160-168): one pass over
all records and prizes with a `seen_urls` set, first occurrence wins. -/
def build_html_flat (entries : List SourceRec) : List Flat :=
  (entries.foldl
    (fun st rec =>
      rec.prizes.foldl
        (fun st p =>
          if p.link ∈ st.1 then st
          else (st.1 ++ [p.link], st.2 ++ [⟨p, rec.send_date⟩]))
        st)
    (([] : List Str), ([] : List Flat))).2

/-- `build_txt_url_list` (lines 335-345): unique stripped non-empty URLs in
first-seen order. -/
def build_txt_url_list (entries : List SourceRec) : List Str :=
  (entries.foldl
    (fun st rec =>
      rec.prizes.foldl
        (fun st p =>
          if stripChars p.link ≠ [] ∧ stripChars p.link ∉ st.1
          then (st.1 ++ [stripChars p.link], st.2 ++ [stripChars p.link])
          else st)
        st)
    (([] : List Str), ([] : List Str))).2

/-! ### Grouping and sort policy (`_sort_and_group_prizes`, lines 229-246)

The Python function is duck-typed over any dict with `title` and an optional
`expiry`; the embedding is parametric over the two accessors. -/

def FARs : Str := "9999.99.99".data

/-- Python `p.get("expiry") or FAR`: the sentinel replaces both a missing and
an empty expiry. -/
def expiryKey (e : Option Str) : Str :=
  match e with
  | none => FARs
  | some s => if s = [] then FARs else s

def entryLe {α : Type} (expiry : α → Option Str) (a b : α) : Bool :=
  lexLe (expiryKey (expiry a)) (expiryKey (expiry b))

/-- One step of the grouping loop: append `p` to its title's group, creating
the group at the end on first encounter (Python `defaultdict(list)` under
insertion-ordered `dict` semantics). -/
def addToGroups {α : Type} (t : Str) (p : α) (gs : List (Str × List α)) :
    List (Str × List α) :=
  if gs.any (fun g => g.1 = t) then
    gs.map (fun g => if g.1 = t then (g.1, g.2 ++ [p]) else g)
  else gs ++ [(t, [p])]

def buildGroups {α : Type} (title : α → Str) (l : List α) : List (Str × List α) :=
  l.foldl (fun gs p => addToGroups (title p) p gs) []

/-- Python `min(expiries) if expiries else FAR` over the truthy expiries. -/
def group_min_expiry {α : Type} (expiry : α → Option Str) (items : List α) : Str :=
  match items.filterMap
      (fun p => match expiry p with
        | some s => if s = [] then none else some s
        | none => none) with
  | [] => FARs
  | e :: es => es.foldl (fun m s => if lexLt s m then s else m) e

def sort_and_group_prizes {α : Type} (title : α → Str) (expiry : α → Option Str)
    (flat : List α) : List α :=
  ((stableSortBy
      (fun a b => lexLe (group_min_expiry expiry a.2) (group_min_expiry expiry b.2))
      ((buildGroups title flat).map
        (fun g => (g.1, stableSortBy (entryLe expiry) g.2)))).map (·.2)).flatten

/-! ### Skip-fetch annotation (main, lines 381-386) and the main flow
(lines 365-419, reduced to control flow and the three report writes). -/

def skipAnnotate (cache : Cache) (entries : List SourceRec) : List SourceRec :=
  entries.map (fun rec =>
    { rec with prizes := rec.prizes.map (fun p =>
        let v := (dictGet cache (stripChars p.link)).getD ([], [])
        { p with expiry := some v.1, used := some v.2 }) })

/-- The main flow: collect, halt when nothing matched, enrich (or read the
cache only), then write the three artifacts.  Only the event trace matters
for the claims. -/
def mainRun (files : List (Str × Option Str)) (net : Str → Option Str)
    (cacheFile : Str) (skipFetch force : Bool) : List Ev :=
  let entries := collect_all_prizes files
  if entries = [] then []
  else
    let evs :=
      if skipFetch then []
      else (enrich_prizes_with_expiry net cacheFile entries force).2.2
    evs ++ [Ev.writeHtml, Ev.writeCoupon, Ev.writeTxt]

/-! ### Spec-side definitions

Declarative counterparts written from the spec's words, to be compared with
the embeddings above: `arrangeSpec` for §4.5 (group by exact title equality
in first-encounter order, stable sorts with the far sentinel at both levels)
and `firstWins` for the first-seen-wins dedup invariant. -/

def titlesInOrder {α : Type} (title : α → Str) : List α → List Str
  | [] => []
  | p :: rest => title p :: (titlesInOrder title rest).filter (fun t => t ≠ title p)

def groupOf {α : Type} (title : α → Str) (l : List α) (t : Str) : List α :=
  l.filter (fun p => title p = t)

def arrangeSpec {α : Type} (title : α → Str) (expiry : α → Option Str)
    (l : List α) : List α :=
  ((stableSortBy
      (fun t1 t2 => lexLe (group_min_expiry expiry (groupOf title l t1))
        (group_min_expiry expiry (groupOf title l t2)))
      (titlesInOrder title l)).map
    (fun t => stableSortBy (entryLe expiry) (groupOf title l t))).flatten

/-- First-seen-wins dedup, written declaratively: keep the head, drop every
later element with the same link. -/
def firstWins : List Flat → List Flat
  | [] => []
  | x :: xs => x :: firstWins (xs.filter (fun y => y.p.link ≠ x.p.link))
termination_by l => l.length
decreasing_by
  simp only [List.length_cons]
  exact Nat.lt_succ_of_le (List.length_filter_le _ _)

/-- First-seen-wins dedup on plain strings. -/
def firstWinsStr : List Str → List Str
  | [] => []
  | x :: xs => x :: firstWinsStr (xs.filter (fun y => y ≠ x))
termination_by l => l.length
decreasing_by
  simp only [List.length_cons]
  exact Nat.lt_succ_of_le (List.length_filter_le _ _)

/-- The flattening of all records' prizes in file order then in-file order,
each prize paired with its record's send date. -/
def flatAll (entries : List SourceRec) : List Flat :=
  entries.flatMap (fun rec => rec.prizes.map (fun p => ⟨p, rec.send_date⟩))

/-- One record of a well-formed cache file for claim C6. -/
structure CacheRec where
  url : Str
  expiry : Str
  status : Str
deriving DecidableEq

def renderRec (r : CacheRec) : Str :=
  r.url ++ '\t' :: r.expiry ++ (if r.status = [] then [] else '\t' :: r.status)

def renderFile (rs : List CacheRec) : Str :=
  joinNl (rs.map renderRec)

def goodField (f : Str) : Prop :=
  '\t' ∉ f ∧ '\n' ∉ f ∧ stripChars f = f

instance (f : Str) : Decidable (goodField f) := by
  unfold goodField; infer_instance

/-- Validity of a cache file, stated through its record list: fields carry no
tabs or newlines and no surrounding whitespace, URLs are pairwise distinct,
the used field is expressed by omission when empty (which `renderRec`
performs), and the file as a whole has no surrounding whitespace. -/
def ValidRecs (rs : List CacheRec) : Prop :=
  (∀ r ∈ rs, goodField r.url ∧ goodField r.expiry ∧ goodField r.status) ∧
  (rs.map (·.url)).Nodup ∧
  stripChars (renderFile rs) = renderFile rs

instance (rs : List CacheRec) : Decidable (ValidRecs rs) := by
  unfold ValidRecs; infer_instance

/-! ### Claim C3: fetcher domain guard -/

/-- C3: for every URL string that does not contain the designated domain
substring `txp.rs`, `fetch_voucher_info` returns (absent expiry, empty used
status) with an empty event trace — no network I/O is attempted, for any
behaviour of the network. -/
theorem C3_fetch_domain_guard (net : Str → Option Str) (url : Str)
    (h : hasSub "txp.rs".data url = false) :
    fetch_voucher_info net url = ((none, []), []) := by
  unfold fetch_voucher_info
  simp [h]

/-- Witness for C3 at a concrete non-domain URL and a network stub that would
answer if it were consulted. -/
theorem C3_fetch_domain_guard_witness :
    hasSub "txp.rs".data "https://example.com/x".data = false ∧
    fetch_voucher_info (fun _ => some "兌換期間至 2025.01.01".data)
      "https://example.com/x".data = ((none, []), []) :=
  ⟨by decide, C3_fetch_domain_guard _ _ (by decide)⟩

/-! ### Claim C2: the post-fetch delay -/

theorem fetch_events_no_sleep (net : Str → Option Str) (url : Str) :
    ((fetch_voucher_info net url).2.countP (· == Ev.sleep)) = 0 := by
  unfold fetch_voucher_info
  by_cases h : hasSub "txp.rs".data url
  · cases hn : net url <;> simp [h, hn, List.countP_cons]
  · simp [h]

/-- C2 counterexample: a cache-miss URL outside the txp.rs domain still
incurs the 0.5s delay — the event trace of the enrichment run on a single
non-domain prize contains `Ev.sleep`, where the claim says no delay occurs. -/
theorem C2_sleep_outside_domain :
    hasSub "txp.rs".data "http://example.org/x".data = false ∧
    (enrich_prizes_with_expiry (fun _ => none) []
      [⟨"f".data, "d".data, [⟨"1".data, "1".data, "T".data, "t".data,
        "http://example.org/x".data, none, none⟩]⟩] false).2.2
      = [Ev.sleep, Ev.save] := by
  exact ⟨by decide, by decide⟩

/-- C2 (amended): the fixed delay is performed after the fetch call for every
cache-miss prize regardless of its URL's domain, and never for a cache hit:
each enrichment step adds exactly one `Ev.sleep` to the trace when the
(stripped) URL misses the cache or a forced refresh is on, and none
otherwise. -/
theorem C2_sleep_on_every_miss (net : Str → Option Str) (force : Bool)
    (c : Cache) (u : Bool) (e : List Ev) (p : Prize) :
    ((enrichStep net force (c, u, e) p).1.2.2.countP (· == Ev.sleep)) =
      e.countP (· == Ev.sleep) +
      (if (if force then none else dictGet c (stripChars p.link)) = none
       then 1 else 0) := by
  unfold enrichStep
  cases h : (if force then none else dictGet c (stripChars p.link)) with
  | some v => simp [h]
  | none =>
    simp only [h, List.countP_append, fetch_events_no_sleep]
    simp [List.countP_cons]

/-! ### Order lemmas for the code-point comparison -/

theorem charToNat_inj {a b : Char} (h : a.toNat = b.toNat) : a = b :=
  Char.ext (UInt32.toNat.inj h)

theorem lexLt_trichotomy : ∀ a b : Str, lexLt a b = true ∨ a = b ∨ lexLt b a = true
  | [], [] => .inr (.inl rfl)
  | [], _ :: _ => .inl rfl
  | _ :: _, [] => .inr (.inr rfl)
  | a :: as, b :: bs => by
    rcases Nat.lt_trichotomy a.toNat b.toNat with h | h | h
    · left; simp [lexLt, h]
    · have hab : a = b := charToNat_inj h
      subst hab
      rcases lexLt_trichotomy as bs with h2 | h2 | h2
      · left; simp [lexLt, h2]
      · right; left; rw [h2]
      · right; right; simp [lexLt, h2]
    · right; right; simp [lexLt, h, Nat.lt_asymm h]

theorem lexLt_trans : ∀ (a b c : Str), lexLt a b = true → lexLt b c = true →
    lexLt a c = true
  | [], [], _, h1, _ => by simp [lexLt] at h1
  | [], _ :: _, [], _, h2 => by simp [lexLt] at h2
  | [], _ :: _, _ :: _, _, _ => rfl
  | _ :: _, [], _, h1, _ => by simp [lexLt] at h1
  | _ :: _, _ :: _, [], _, h2 => by simp [lexLt] at h2
  | a :: as, b :: bs, c :: cs, h1, h2 => by
    simp only [lexLt] at h1 h2 ⊢
    rcases Nat.lt_trichotomy a.toNat b.toNat with hab | hab | hab
    · rcases Nat.lt_trichotomy b.toNat c.toNat with hbc | hbc | hbc
      · simp [Nat.lt_trans hab hbc]
      · simp [hbc ▸ hab]
      · simp [Nat.lt_asymm hbc, hbc] at h2
    · have := charToNat_inj hab
      subst this
      simp only [Nat.lt_irrefl, if_false] at h1
      rcases Nat.lt_trichotomy a.toNat c.toNat with hac | hac | hac
      · simp [hac]
      · have := charToNat_inj hac
        subst this
        simp only [Nat.lt_irrefl, if_false] at h2 ⊢
        exact lexLt_trans as bs cs h1 h2
      · simp [Nat.lt_asymm hac, hac] at h2
    · simp [Nat.lt_asymm hab, hab] at h1

theorem lexLt_antisym {a b : Str} (h1 : lexLt a b = false)
    (h2 : lexLt b a = false) : a = b := by
  rcases lexLt_trichotomy a b with h | h | h
  · rw [h] at h1; simp at h1
  · exact h
  · rw [h] at h2; simp at h2

/-- The inner accumulator of Python `min` over a nonempty string list. -/
def foldlMin (e : Str) (es : List Str) : Str :=
  es.foldl (fun m s => if lexLt s m then s else m) e

theorem lexLt_irrefl : ∀ s : Str, lexLt s s = false
  | [] => rfl
  | a :: as => by simp [lexLt, lexLt_irrefl as]

theorem foldlMin_mem : ∀ (es : List Str) (e : Str), foldlMin e es ∈ e :: es
  | [], e => by simp [foldlMin]
  | s :: rest, e => by
    have he : foldlMin e (s :: rest) = foldlMin (if lexLt s e then s else e) rest := rfl
    rw [he]
    have h := foldlMin_mem rest (if lexLt s e then s else e)
    by_cases hc : lexLt s e = true
    · rw [if_pos hc] at h ⊢
      rcases List.mem_cons.mp h with h | h <;> simp [h]
    · rw [if_neg hc] at h ⊢
      rcases List.mem_cons.mp h with h | h <;> simp [h]

theorem foldlMin_not_lt : ∀ (es : List Str) (e x : Str), x ∈ e :: es →
    lexLt x (foldlMin e es) = false
  | [], e, x, hx => by
    have : x = e := by simpa using hx
    subst this
    have h0 : foldlMin x [] = x := rfl
    rw [h0, lexLt_irrefl]
  | s :: rest, e, x, hx => by
    have he : foldlMin e (s :: rest) = foldlMin (if lexLt s e then s else e) rest := rfl
    rw [he]
    have ihacc := foldlMin_not_lt rest (if lexLt s e then s else e)
      (if lexLt s e then s else e) (List.mem_cons_self _ _)
    rcases List.mem_cons.mp hx with hxe | hx2
    · subst hxe
      by_cases hc : lexLt s x = true
      · rw [if_pos hc] at ihacc ⊢
        by_contra hlt
        simp only [Bool.not_eq_false] at hlt
        exact absurd (lexLt_trans s x _ hc hlt) (by simp [ihacc])
      · rw [if_neg hc] at ihacc ⊢
        exact ihacc
    · rcases List.mem_cons.mp hx2 with hxs | hxr
      · subst hxs
        by_cases hc : lexLt x e = true
        · rw [if_pos hc] at ihacc ⊢
          exact ihacc
        · rw [if_neg hc] at ihacc ⊢
          rcases lexLt_trichotomy x e with h | h | h
          · simp_all
          · subst h; exact ihacc
          · by_contra hlt
            simp only [Bool.not_eq_false] at hlt
            exact absurd (lexLt_trans e x _ h hlt) (by simp [ihacc])
      · exact foldlMin_not_lt rest (if lexLt s e then s else e) x
          (List.mem_cons_of_mem _ hxr)

theorem foldlMin_perm {e e' : Str} {es es' : List Str}
    (h : (e :: es).Perm (e' :: es')) : foldlMin e es = foldlMin e' es' :=
  lexLt_antisym
    (foldlMin_not_lt es' e' _ (h.mem_iff.mp (foldlMin_mem es e)))
    (foldlMin_not_lt es e _ (h.symm.mem_iff.mp (foldlMin_mem es' e')))

theorem group_min_expiry_perm {α : Type} (expiry : α → Option Str)
    {l1 l2 : List α} (h : l1.Perm l2) :
    group_min_expiry expiry l1 = group_min_expiry expiry l2 := by
  have hp := h.filterMap
    (fun p => match expiry p with
      | some s => if s = [] then none else some s
      | none => none)
  unfold group_min_expiry
  cases h1 : l1.filterMap
      (fun p => match expiry p with
        | some s => if s = [] then none else some s
        | none => none) with
  | nil =>
    rw [h1] at hp
    have h2 := hp.nil_eq
    rw [← h2]
  | cons e es =>
    rw [h1] at hp
    cases h2 : l2.filterMap
        (fun p => match expiry p with
          | some s => if s = [] then none else some s
          | none => none) with
    | nil => rw [h2] at hp; exact absurd hp.eq_nil (by simp)
    | cons e' es' =>
      rw [h2] at hp
      exact foldlMin_perm hp

theorem insertStable_perm {α : Type} (le : α → α → Bool) (x : α) :
    ∀ l : List α, (insertStable le x l).Perm (x :: l)
  | [] => .refl _
  | y :: ys => by
    unfold insertStable
    by_cases h : le y x
    · rw [if_pos h]
      exact ((insertStable_perm le x ys).cons y).trans (List.Perm.swap x y ys)
    · rw [if_neg h]

theorem stableSortBy_perm_aux {α : Type} (le : α → α → Bool) :
    ∀ (l acc : List α), (l.foldl (fun a x => insertStable le x a) acc).Perm (l ++ acc)
  | [], acc => by simp
  | p :: l, acc => by
    simp only [List.foldl_cons, List.cons_append]
    refine (stableSortBy_perm_aux le l (insertStable le p acc)).trans ?_
    refine (List.Perm.append_left l (insertStable_perm le p acc)).trans ?_
    exact List.perm_middle

theorem stableSortBy_perm {α : Type} (le : α → α → Bool) (l : List α) :
    (stableSortBy le l).Perm l := by
  have := stableSortBy_perm_aux le l []
  simpa [stableSortBy] using this

theorem insertStable_map {α β : Type} (le : α → α → Bool) (le' : β → β → Bool)
    (f : α → β) (hc : ∀ a b, le' (f a) (f b) = le a b) (x : α) :
    ∀ l : List α, insertStable le' (f x) (l.map f) = (insertStable le x l).map f
  | [] => rfl
  | y :: ys => by
    simp only [List.map_cons, insertStable, hc]
    by_cases h : le y x
    · rw [if_pos h, if_pos h, insertStable_map le le' f hc x ys, List.map_cons]
    · rw [if_neg h, if_neg h]
      simp

theorem stableSortBy_map {α β : Type} (le : α → α → Bool) (le' : β → β → Bool)
    (f : α → β) (hc : ∀ a b, le' (f a) (f b) = le a b) (l : List α) :
    stableSortBy le' (l.map f) = (stableSortBy le l).map f := by
  unfold stableSortBy
  rw [List.foldl_map]
  suffices h : ∀ acc : List α,
      l.foldl (fun a x => insertStable le' (f x) a) (acc.map f) =
        (l.foldl (fun a x => insertStable le x a) acc).map f by
    simpa using h []
  induction l with
  | nil => intro acc; simp
  | cons p l ih =>
    intro acc
    simp only [List.foldl_cons]
    rw [insertStable_map le le' f hc p acc, ih]

theorem filter_ne_then_notmem {T : List Str} {tp : Str} (h : tp ∈ T)
    (X : List Str) :
    (X.filter (fun t => t ≠ tp)).filter (fun t => t ∉ T) =
      X.filter (fun t => t ∉ T) := by
  rw [List.filter_filter]
  refine List.filter_congr ?_
  intro t _
  by_cases ht : t ∈ T
  · simp [ht]
  · have : t ≠ tp := fun he => ht (he ▸ h)
    simp [ht, this]

theorem filter_ne_then_notmem_append {T : List Str} {tp : Str} (X : List Str) :
    (X.filter (fun t => t ≠ tp)).filter (fun t => t ∉ T) =
      X.filter (fun t => t ∉ T ++ [tp]) := by
  rw [List.filter_filter]
  refine List.filter_congr ?_
  intro t _
  by_cases ht : t ∈ T <;> by_cases he : t = tp <;>
    simp [ht, he, List.mem_append]

theorem buildGroups_go {α : Type} (title : α → Str) :
    ∀ (l : List α) (T : List Str) (g : Str → List α), T.Nodup →
      (∀ t, t ∉ T → g t = []) →
      l.foldl (fun gs p => addToGroups (title p) p gs)
          (T.map (fun t => (t, g t))) =
        (T ++ (titlesInOrder title l).filter (fun t => t ∉ T)).map
          (fun t => (t, g t ++ groupOf title l t))
  | [], T, g, _, _ => by
    simp [titlesInOrder, groupOf]
  | p :: l, T, g, hnd, hg => by
    simp only [List.foldl_cons]
    by_cases hmem : title p ∈ T
    · have hstep : addToGroups (title p) p (T.map (fun t => (t, g t))) =
          T.map (fun t => (t, g t ++ if t = title p then [p] else [])) := by
        unfold addToGroups
        have hany : (T.map (fun t => (t, g t))).any (fun g => g.1 = title p) = true := by
          simp only [List.any_eq_true]
          exact ⟨(title p, g (title p)), List.mem_map_of_mem _ hmem, by simp⟩
        rw [if_pos hany, List.map_map]
        refine List.map_congr_left ?_
        intro t _
        by_cases ht : t = title p <;> simp [ht]
      rw [hstep]
      rw [buildGroups_go title l T
        (fun t => g t ++ if t = title p then [p] else []) hnd
        (by
          intro t ht
          have h1 := hg t ht
          have h2 : t ≠ title p := fun he => ht (he ▸ hmem)
          simp [h1, h2])]
      have htio : titlesInOrder title (p :: l) =
          title p :: (titlesInOrder title l).filter (fun t => t ≠ title p) := rfl
      rw [htio, List.filter_cons]
      have : (decide (title p ∉ T)) = false := by simp [hmem]
      rw [this]
      simp only [Bool.false_eq_true, if_false]
      rw [filter_ne_then_notmem hmem]
      refine List.map_congr_left ?_
      intro t _
      by_cases ht : t = title p
      · subst ht
        simp [groupOf, List.filter_cons]
      · have hne : title p ≠ t := fun h => ht h.symm
        simp [groupOf, List.filter_cons, hne, ht]
    · have hstep : addToGroups (title p) p (T.map (fun t => (t, g t))) =
          (T ++ [title p]).map
            (fun t => (t, g t ++ if t = title p then [p] else [])) := by
        unfold addToGroups
        have hany : (T.map (fun t => (t, g t))).any (fun g => g.1 = title p) = false := by
          simp only [List.any_eq_false]
          intro pair hpair
          obtain ⟨t, ht, rfl⟩ := List.mem_map.mp hpair
          have : t ≠ title p := fun he => hmem (he ▸ ht)
          simp [this]
        rw [if_neg (by simp [hany])]
        rw [List.map_append]
        congr 1
        · refine List.map_congr_left ?_
          intro t ht
          have : t ≠ title p := fun he => hmem (he ▸ ht)
          simp [this]
        · simp [hg (title p) hmem]
      rw [hstep]
      rw [buildGroups_go title l (T ++ [title p])
        (fun t => g t ++ if t = title p then [p] else [])
        (by
          simp only [List.nodup_append]
          exact ⟨hnd, List.nodup_singleton _, by
            intro t ht
            simp only [List.mem_singleton]
            exact fun he => hmem (he ▸ ht)⟩)
        (by
          intro t ht
          simp only [List.mem_append, List.mem_singleton, not_or] at ht
          simp [hg t ht.1, ht.2])]
      have htio : titlesInOrder title (p :: l) =
          title p :: (titlesInOrder title l).filter (fun t => t ≠ title p) := rfl
      rw [htio, List.filter_cons]
      have : (decide (title p ∉ T)) = true := by simp [hmem]
      rw [this]
      simp only [if_true]
      rw [filter_ne_then_notmem_append]
      have hassoc : T ++ title p ::
          (titlesInOrder title l).filter (fun t => t ∉ T ++ [title p]) =
          (T ++ [title p]) ++
            (titlesInOrder title l).filter (fun t => t ∉ T ++ [title p]) := by
        simp
      rw [hassoc]
      refine List.map_congr_left ?_
      intro t _
      by_cases ht : t = title p
      · subst ht
        simp [groupOf, List.filter_cons]
      · have hne : title p ≠ t := fun h => ht h.symm
        simp [groupOf, List.filter_cons, hne, ht]

theorem buildGroups_eq {α : Type} (title : α → Str) (l : List α) :
    buildGroups title l =
      (titlesInOrder title l).map (fun t => (t, groupOf title l t)) := by
  have h := buildGroups_go title l [] (fun _ => []) List.nodup_nil (by intros; rfl)
  simpa [buildGroups] using h

theorem titlesInOrder_nodup {α : Type} (title : α → Str) :
    ∀ l : List α, (titlesInOrder title l).Nodup
  | [] => List.nodup_nil
  | p :: l => by
    simp only [titlesInOrder]
    refine List.Nodup.cons ?_ (List.Nodup.filter _ (titlesInOrder_nodup title l))
    intro hmem
    have h := List.of_mem_filter hmem
    simp at h

theorem mem_titlesInOrder {α : Type} (title : α → Str) :
    ∀ (l : List α) (t : Str), t ∈ titlesInOrder title l ↔ ∃ p ∈ l, title p = t
  | [], t => by simp [titlesInOrder]
  | p :: l, t => by
    simp only [titlesInOrder, List.mem_cons, List.mem_filter]
    constructor
    · rintro (rfl | ⟨hmem, _⟩)
      · exact ⟨p, Or.inl rfl, rfl⟩
      · obtain ⟨q, hq, ht⟩ := (mem_titlesInOrder title l t).mp hmem
        exact ⟨q, Or.inr hq, ht⟩
    · rintro ⟨q, hq, rfl⟩
      rcases hq with rfl | hq'
      · left; rfl
      · by_cases he : title q = title p
        · left; exact he
        · right
          exact ⟨(mem_titlesInOrder title l _).mpr ⟨q, hq', rfl⟩, by simp [he]⟩

theorem groupOf_eq_nil_of_not_mem {α : Type} (title : α → Str) {l : List α}
    {t : Str} (h : t ∉ titlesInOrder title l) : groupOf title l t = [] := by
  simp only [groupOf]
  rw [List.filter_eq_nil_iff]
  intro x hx
  simp only [decide_eq_true_eq]
  intro he
  exact h ((mem_titlesInOrder title l t).mpr ⟨x, hx, he⟩)

theorem flatten_map_congr_perm {α β : Type} (f g : α → List β) :
    ∀ l : List α, (∀ a ∈ l, (f a).Perm (g a)) →
      ((l.map f).flatten).Perm ((l.map g).flatten)
  | [], _ => .refl _
  | a :: l, h => by
    simp only [List.map_cons, List.flatten_cons]
    exact (h a (List.mem_cons_self _ _)).append
      (flatten_map_congr_perm f g l (fun x hx => h x (List.mem_cons_of_mem _ hx)))

theorem nodup_perm_cons_filter {l : List Str} {a : Str} (hnd : l.Nodup)
    (h : a ∈ l) : l.Perm (a :: l.filter (fun t => t ≠ a)) := by
  induction l with
  | nil => cases h
  | cons b l ih =>
    rcases List.mem_cons.mp h with rfl | hmem
    · have hnotin : a ∉ l := (List.nodup_cons.mp hnd).1
      have hself : l.filter (fun t => t ≠ a) = l := by
        rw [List.filter_eq_self]
        intro t ht
        simp only [decide_eq_true_eq]
        exact fun he => hnotin (he ▸ ht)
      have hfc : (a :: l).filter (fun t => t ≠ a) = l := by
        rw [List.filter_cons, if_neg (by simp), hself]
      rw [hfc]
    · have hne : b ≠ a := by
        rintro rfl
        exact (List.nodup_cons.mp hnd).1 hmem
      have hstep := ih (List.nodup_cons.mp hnd).2 hmem
      rw [List.filter_cons, if_pos (by simp [hne])]
      exact (hstep.cons b).trans (List.Perm.swap a b _)

theorem flatten_map_groupOf_perm {α : Type} (title : α → Str) :
    ∀ l : List α,
      (((titlesInOrder title l).map (fun t => groupOf title l t)).flatten).Perm l
  | [] => by simp [titlesInOrder]
  | p :: l => by
    simp only [titlesInOrder, List.map_cons, List.flatten_cons]
    have hhead : groupOf title (p :: l) (title p) = p :: groupOf title l (title p) := by
      simp [groupOf, List.filter_cons]
    have hrest : ((titlesInOrder title l).filter (fun t => t ≠ title p)).map
        (fun t => groupOf title (p :: l) t) =
        ((titlesInOrder title l).filter (fun t => t ≠ title p)).map
          (fun t => groupOf title l t) := by
      refine List.map_congr_left ?_
      intro t ht
      have hne := List.of_mem_filter ht
      simp only [decide_eq_true_eq] at hne
      have hne' : ¬ (title p = t) := fun h => hne h.symm
      simp [groupOf, List.filter_cons, hne']
    rw [hhead, hrest, List.cons_append]
    refine List.Perm.cons p ?_
    by_cases hmem : title p ∈ titlesInOrder title l
    · have hnd := titlesInOrder_nodup title l
      have hperm := nodup_perm_cons_filter hnd hmem
      have h2 := (hperm.map (fun t => groupOf title l t)).flatten
      simp only [List.map_cons, List.flatten_cons] at h2
      exact h2.symm.trans (flatten_map_groupOf_perm title l)
    · rw [groupOf_eq_nil_of_not_mem title hmem, List.nil_append]
      have hfe : (titlesInOrder title l).filter (fun t => t ≠ title p) =
          titlesInOrder title l := by
        rw [List.filter_eq_self]
        intro t ht
        simp only [decide_eq_true_eq]
        exact fun he => hmem (he ▸ ht)
      rw [hfe]
      exact flatten_map_groupOf_perm title l

theorem sort_and_group_eq_arrangeSpec {α : Type} (title : α → Str)
    (expiry : α → Option Str) (l : List α) :
    sort_and_group_prizes title expiry l = arrangeSpec title expiry l := by
  unfold sort_and_group_prizes arrangeSpec
  have h1 : (buildGroups title l).map
      (fun g => (g.1, stableSortBy (entryLe expiry) g.2)) =
      (titlesInOrder title l).map
        (fun t => (t, stableSortBy (entryLe expiry) (groupOf title l t))) := by
    rw [buildGroups_eq, List.map_map]
    rfl
  rw [h1]
  have hc : ∀ t1 t2 : Str,
      (fun a b : Str × List α => lexLe (group_min_expiry expiry a.2)
        (group_min_expiry expiry b.2))
        ((fun t => (t, stableSortBy (entryLe expiry) (groupOf title l t))) t1)
        ((fun t => (t, stableSortBy (entryLe expiry) (groupOf title l t))) t2) =
      (fun t1 t2 => lexLe (group_min_expiry expiry (groupOf title l t1))
        (group_min_expiry expiry (groupOf title l t2))) t1 t2 := by
    intro t1 t2
    simp only
    rw [group_min_expiry_perm expiry (stableSortBy_perm _ _),
        group_min_expiry_perm expiry (stableSortBy_perm _ _)]
  rw [stableSortBy_map
    (fun t1 t2 => lexLe (group_min_expiry expiry (groupOf title l t1))
      (group_min_expiry expiry (groupOf title l t2)))
    (fun a b => lexLe (group_min_expiry expiry a.2) (group_min_expiry expiry b.2))
    (fun t => (t, stableSortBy (entryLe expiry) (groupOf title l t))) hc
    (titlesInOrder title l)]
  rw [List.map_map]
  rfl

/-- A real date in `YYYY.MM.DD` textual form: four digits, dot, a month
between 01 and 12, dot, two digits. -/
def isRealDate (s : Str) : Bool :=
  match s with
  | [y1, y2, y3, y4, c1, m1, m2, c2, d1, d2] =>
    isDigitC y1 && isDigitC y2 && isDigitC y3 && isDigitC y4 &&
    c1 = '.' && c2 = '.' && isDigitC d1 && isDigitC d2 &&
    ((m1 = '0' && isDigitC m2 && m2 ≠ '0') ||
     (m1 = '1' && (m2 = '0' || m2 = '1' || m2 = '2')))
  | _ => false

theorem lexLt_cons_of_lt {a b : Char} (as bs : Str) (h : a.toNat < b.toNat) :
    lexLt (a :: as) (b :: bs) = true := by simp [lexLt, h]

theorem lexLt_cons_self {a : Char} (as bs : Str) :
    lexLt (a :: as) (a :: bs) = lexLt as bs := by simp [lexLt]

theorem digit_lt9_or_eq9 {c : Char} (h : isDigitC c = true) :
    c.toNat < 57 ∨ c = '9' := by
  simp only [isDigitC, Bool.and_eq_true, decide_eq_true_eq] at h
  rcases Nat.lt_or_ge c.toNat 57 with h1 | h1
  · exact Or.inl h1
  · right
    have h2 : c.toNat = 57 := Nat.le_antisymm h.2 h1
    exact charToNat_inj (h2.trans (by decide))

theorem realDate_lt_sentinel (d : Str) (h : isRealDate d = true) :
    lexLt d FARs = true := by
  match d, h with
  | [y1, y2, y3, y4, c1, m1, m2, c2, d1, d2], h =>
    simp only [isRealDate, Bool.and_eq_true, Bool.or_eq_true,
      decide_eq_true_eq] at h
    obtain ⟨⟨⟨⟨⟨⟨⟨⟨hy1, hy2⟩, hy3⟩, hy4⟩, hc1⟩, hc2⟩, hd1⟩, hd2⟩, hm⟩ := h
    have hF : FARs = ['9', '9', '9', '9', '.', '9', '9', '.', '9', '9'] := rfl
    rw [hF]
    subst hc1
    rcases digit_lt9_or_eq9 hy1 with h1 | h1
    · exact lexLt_cons_of_lt _ _ h1
    · subst h1
      rw [lexLt_cons_self]
      rcases digit_lt9_or_eq9 hy2 with h2 | h2
      · exact lexLt_cons_of_lt _ _ h2
      · subst h2
        rw [lexLt_cons_self]
        rcases digit_lt9_or_eq9 hy3 with h3 | h3
        · exact lexLt_cons_of_lt _ _ h3
        · subst h3
          rw [lexLt_cons_self]
          rcases digit_lt9_or_eq9 hy4 with h4 | h4
          · exact lexLt_cons_of_lt _ _ h4
          · subst h4
            rw [lexLt_cons_self, lexLt_cons_self]
            rcases hm with h | h
            · rw [h.1.1]
              exact lexLt_cons_of_lt _ _ (by decide)
            · rw [h.1]
              exact lexLt_cons_of_lt _ _ (by decide)

/-- C1: the grouping-and-sort policy groups by exact title equality, sorts
each group ascending by expiry with the far sentinel replacing a missing or
empty expiry (the sentinel is strictly after every real `YYYY.MM.DD` value),
orders the groups by minimum member expiry, and breaks all ties by
first-encountered order: the code's `_sort_and_group_prizes` coincides with
the declarative `arrangeSpec` on every input list, and on the spec's concrete
three-entry example it yields group B before group A with the dated A entry
before the undated one. -/
theorem C1_grouping_sort_policy :
    (∀ l : List Prize, sort_and_group_prizes Prize.title Prize.expiry l =
        arrangeSpec Prize.title Prize.expiry l) ∧
    (∀ d : Str, isRealDate d = true → lexLt d FARs = true) ∧
    sort_and_group_prizes Prize.title Prize.expiry
        [⟨"1".data, "1".data, "A".data, "t1".data, "u1".data,
            some "2025.01.01".data, none⟩,
         ⟨"2".data, "1".data, "A".data, "t2".data, "u2".data, none, none⟩,
         ⟨"3".data, "1".data, "B".data, "t3".data, "u3".data,
            some "2024.06.01".data, none⟩] =
      [⟨"3".data, "1".data, "B".data, "t3".data, "u3".data,
          some "2024.06.01".data, none⟩,
       ⟨"1".data, "1".data, "A".data, "t1".data, "u1".data,
          some "2025.01.01".data, none⟩,
       ⟨"2".data, "1".data, "A".data, "t2".data, "u2".data, none, none⟩] :=
  ⟨fun l => sort_and_group_eq_arrangeSpec _ _ l, realDate_lt_sentinel, by decide⟩

/-- Witness for C1's sentinel clause at a concrete real date. -/
theorem C1_grouping_sort_policy_witness :
    isRealDate "2025.01.01".data = true ∧ lexLt "2025.01.01".data FARs = true :=
  ⟨by decide, C1_grouping_sort_policy.2.1 _ (by decide)⟩

/-- C10: on every input list the grouping-and-sort policy returns a
permutation of its input — every entry occurs in the output exactly as often
as in the input, none dropped, duplicated or modified. -/
theorem C10_policy_permutation (l : List Prize) :
    (sort_and_group_prizes Prize.title Prize.expiry l).Perm l := by
  rw [sort_and_group_eq_arrangeSpec]
  unfold arrangeSpec
  refine List.Perm.trans ?_ (flatten_map_groupOf_perm Prize.title l)
  refine List.Perm.trans ?_ (flatten_map_congr_perm
    (fun t => stableSortBy (entryLe Prize.expiry) (groupOf Prize.title l t))
    (fun t => groupOf Prize.title l t) (titlesInOrder Prize.title l)
    (fun t _ => stableSortBy_perm _ _))
  exact ((stableSortBy_perm _ (titlesInOrder Prize.title l)).map _).flatten

/-! ### Claims C5: first-seen-wins deduplication -/

theorem build_html_flat_flatten (entries : List SourceRec) :
    ∀ st : List Str × List Flat,
      entries.foldl
        (fun st rec =>
          rec.prizes.foldl
            (fun st p =>
              if p.link ∈ st.1 then st
              else (st.1 ++ [p.link], st.2 ++ [⟨p, rec.send_date⟩]))
            st)
        st =
      (flatAll entries).foldl
        (fun st f =>
          if f.p.link ∈ st.1 then st
          else (st.1 ++ [f.p.link], st.2 ++ [f]))
        st := by
  induction entries with
  | nil => intro st; simp [flatAll]
  | cons rec rest ih =>
    intro st
    have hfa : flatAll (rec :: rest) =
        rec.prizes.map (fun p => (⟨p, rec.send_date⟩ : Flat)) ++ flatAll rest := by
      simp [flatAll]
    rw [List.foldl_cons, hfa, List.foldl_append, List.foldl_map, ih]

theorem dedup_foldl_firstWins :
    ∀ (l : List Flat) (seen : List Str) (acc : List Flat),
      (l.foldl
        (fun st f =>
          if f.p.link ∈ st.1 then st
          else (st.1 ++ [f.p.link], st.2 ++ [f]))
        (seen, acc)).2 =
      acc ++ firstWins (l.filter (fun f => f.p.link ∉ seen))
  | [], seen, acc => by simp [firstWins]
  | f :: fs, seen, acc => by
    simp only [List.foldl_cons, List.filter_cons]
    by_cases hmem : f.p.link ∈ seen
    · rw [if_pos hmem, if_neg (by simp [hmem])]
      exact dedup_foldl_firstWins fs seen acc
    · rw [if_neg hmem, if_pos (by simp [hmem])]
      rw [dedup_foldl_firstWins fs (seen ++ [f.p.link]) (acc ++ [f])]
      have hfe : fs.filter (fun y => y.p.link ∉ seen ++ [f.p.link]) =
          (fs.filter (fun y => y.p.link ∉ seen)).filter
            (fun y => y.p.link ≠ f.p.link) := by
        rw [List.filter_filter]
        refine List.filter_congr ?_
        intro y _
        by_cases h1 : y.p.link ∈ seen <;> by_cases h2 : y.p.link = f.p.link <;>
          simp [h1, h2, List.mem_append]
      rw [hfe]
      have hfw : firstWins (f :: fs.filter (fun y => y.p.link ∉ seen)) =
          f :: firstWins ((fs.filter (fun y => y.p.link ∉ seen)).filter
            (fun y => y.p.link ≠ f.p.link)) := by
        simp [firstWins]
      rw [hfw]
      simp

theorem build_html_flat_eq_firstWins (entries : List SourceRec) :
    build_html_flat entries = firstWins (flatAll entries) := by
  unfold build_html_flat
  rw [build_html_flat_flatten entries ([], []), dedup_foldl_firstWins]
  simp

theorem firstWins_mem : ∀ (l : List Flat) (f : Flat), f ∈ firstWins l → f ∈ l
  | [], _, h => by simp [firstWins] at h
  | x :: xs, f, h => by
    rw [show firstWins (x :: xs) =
        x :: firstWins (xs.filter (fun y => y.p.link ≠ x.p.link)) by
      simp [firstWins]] at h
    rcases List.mem_cons.mp h with rfl | h2
    · exact List.mem_cons_self _ _
    · have := firstWins_mem _ _ h2
      exact List.mem_cons_of_mem _ (List.mem_of_mem_filter this)
termination_by l => l.length
decreasing_by
  simp only [List.length_cons]
  exact Nat.lt_succ_of_le (List.length_filter_le _ _)

theorem firstWins_links_nodup :
    ∀ l : List Flat, ((firstWins l).map (fun f => f.p.link)).Nodup
  | [] => by simp [firstWins]
  | x :: xs => by
    rw [show firstWins (x :: xs) =
        x :: firstWins (xs.filter (fun y => y.p.link ≠ x.p.link)) by
      simp [firstWins]]
    rw [List.map_cons]
    refine List.Nodup.cons ?_ (firstWins_links_nodup _)
    intro hmem
    obtain ⟨g, hg, he⟩ := List.mem_map.mp hmem
    have hgf := List.of_mem_filter (firstWins_mem _ _ hg)
    simp only [decide_eq_true_eq] at hgf
    exact hgf he
termination_by l => l.length
decreasing_by
  simp only [List.length_cons]
  exact Nat.lt_succ_of_le (List.length_filter_le _ _)

theorem build_txt_flatten (entries : List SourceRec) :
    ∀ st : List Str × List Str,
      entries.foldl
        (fun st rec =>
          rec.prizes.foldl
            (fun st p =>
              if stripChars p.link ≠ [] ∧ stripChars p.link ∉ st.1
              then (st.1 ++ [stripChars p.link], st.2 ++ [stripChars p.link])
              else st)
            st)
        st =
      ((flatAll entries).map (fun f => stripChars f.p.link)).foldl
        (fun st u => if u ≠ [] ∧ u ∉ st.1 then (st.1 ++ [u], st.2 ++ [u]) else st)
        st := by
  induction entries with
  | nil => intro st; simp [flatAll]
  | cons rec rest ih =>
    intro st
    have hfa : (flatAll (rec :: rest)).map (fun f => stripChars f.p.link) =
        rec.prizes.map (fun p => stripChars p.link) ++
          (flatAll rest).map (fun f => stripChars f.p.link) := by
      simp only [flatAll, List.flatMap_cons, List.map_append, List.map_map]
      rfl
    rw [List.foldl_cons, hfa, List.foldl_append, ih]
    congr 1
    rw [List.foldl_map]

theorem txt_foldl_firstWins :
    ∀ (l : List Str) (seen acc : List Str),
      (l.foldl
        (fun st u => if u ≠ [] ∧ u ∉ st.1 then (st.1 ++ [u], st.2 ++ [u]) else st)
        (seen, acc)).2 =
      acc ++ firstWinsStr ((l.filter (fun u => u ≠ [])).filter
        (fun u => u ∉ seen))
  | [], seen, acc => by simp [firstWinsStr]
  | u :: us, seen, acc => by
    simp only [List.foldl_cons]
    by_cases hne : u = []
    · subst hne
      have h1 : (([] : Str) :: us).filter (fun v => v ≠ []) =
          us.filter (fun v => v ≠ []) := by
        rw [List.filter_cons]
        simp
      rw [if_neg (by simp), txt_foldl_firstWins us seen acc, h1]
    · have h1 : (u :: us).filter (fun v => v ≠ []) =
          u :: us.filter (fun v => v ≠ []) := by
        rw [List.filter_cons, if_pos (by simp [hne])]
      rw [h1]
      by_cases hmem : u ∈ seen
      · have h2 : (u :: us.filter (fun v => v ≠ [])).filter (fun v => v ∉ seen) =
            (us.filter (fun v => v ≠ [])).filter (fun v => v ∉ seen) := by
          rw [List.filter_cons, if_neg (by simp [hmem])]
        rw [if_neg (by simp [hmem]), txt_foldl_firstWins us seen acc, h2]
      · have h2 : (u :: us.filter (fun v => v ≠ [])).filter (fun v => v ∉ seen) =
            u :: (us.filter (fun v => v ≠ [])).filter (fun v => v ∉ seen) := by
          rw [List.filter_cons, if_pos (by simp [hmem])]
        rw [if_pos (⟨hne, hmem⟩ : u ≠ [] ∧ u ∉ seen),
          txt_foldl_firstWins us (seen ++ [u]) (acc ++ [u]), h2]
        have hfe : (us.filter (fun v => v ≠ [])).filter
            (fun v => v ∉ seen ++ [u]) =
            ((us.filter (fun v => v ≠ [])).filter (fun v => v ∉ seen)).filter
              (fun v => v ≠ u) := by
          rw [List.filter_filter, List.filter_filter, List.filter_filter]
          refine List.filter_congr ?_
          intro v _
          by_cases hv1 : v ∈ seen <;> by_cases hv2 : v = u <;>
            by_cases hv3 : v = [] <;>
            simp [hv1, hv2, hv3, List.mem_append]
        rw [hfe]
        have hfw : firstWinsStr
            (u :: (us.filter (fun v => v ≠ [])).filter (fun v => v ∉ seen)) =
            u :: firstWinsStr (((us.filter (fun v => v ≠ [])).filter
              (fun v => v ∉ seen)).filter (fun v => v ≠ u)) := by
          simp [firstWinsStr]
        rw [hfw]
        simp

theorem build_txt_eq_firstWins (entries : List SourceRec) :
    build_txt_url_list entries =
      firstWinsStr (((flatAll entries).map (fun f => stripChars f.p.link)).filter
        (fun u => u ≠ [])) := by
  unfold build_txt_url_list
  rw [build_txt_flatten entries ([], []), txt_foldl_firstWins]
  have h : (((flatAll entries).map (fun f => stripChars f.p.link)).filter
      (fun u => u ≠ [])).filter (fun u => u ∉ ([] : List Str)) =
      ((flatAll entries).map (fun f => stripChars f.p.link)).filter
        (fun u => u ≠ []) := by
    rw [List.filter_eq_self]
    intro v _
    simp
  rw [h, List.nil_append]

/-- C5: the flattened deduplicated list `build_html` renders from is exactly
the first-seen-wins dedup (in file order then in-file order) of all prizes,
each retained entry carrying the send date of the file that produced it;
the retained links are pairwise distinct; `build_txt_url_list` is likewise
the first-seen-wins dedup of the stripped nonempty links.  The concrete
two-file scenario with a shared URL keeps one entry with the first file's
send date. -/
theorem C5_dedup_first_seen :
    (∀ entries : List SourceRec,
      build_html_flat entries = firstWins (flatAll entries) ∧
      ((build_html_flat entries).map (fun f => f.p.link)).Nodup ∧
      build_txt_url_list entries =
        firstWinsStr (((flatAll entries).map
          (fun f => stripChars f.p.link)).filter (fun u => u ≠ []))) ∧
    build_html_flat
        [⟨"f1".data, "d1".data,
          [⟨"1".data, "1".data, "T".data, "t1".data, "http://u".data, none, none⟩]⟩,
         ⟨"f2".data, "d2".data,
          [⟨"2".data, "1".data, "T2".data, "t2".data, "http://u".data, none, none⟩]⟩] =
      [⟨⟨"1".data, "1".data, "T".data, "t1".data, "http://u".data, none, none⟩,
        "d1".data⟩] := by
  refine ⟨fun entries => ⟨build_html_flat_eq_firstWins entries, ?_,
    build_txt_eq_firstWins entries⟩, by decide⟩
  rw [build_html_flat_eq_firstWins]
  exact firstWins_links_nodup _

/-! ### Claim C6: cache round trip -/

theorem splitNl_ne_nil : ∀ s : Str, splitNl s ≠ []
  | [] => by simp [splitNl]
  | c :: t => by
    simp only [splitNl]
    cases h : splitNl t with
    | nil => simp
    | cons l ls => by_cases hc : c = '\n' <;> simp [hc]

theorem splitNl_append_no_nl : ∀ (l s : Str), '\n' ∉ l →
    splitNl (l ++ s) =
      match splitNl s with
      | [] => [l]
      | h :: t => (l ++ h) :: t
  | [], s, _ => by
    cases h : splitNl s with
    | nil => exact absurd h (splitNl_ne_nil s)
    | cons a t => simp [h]
  | c :: l', s, hnl => by
    have hc : c ≠ '\n' := fun he => hnl (he ▸ List.mem_cons_self _ _)
    have hnl' : '\n' ∉ l' := fun hm => hnl (List.mem_cons_of_mem _ hm)
    have h1 : (c :: l') ++ s = c :: (l' ++ s) := rfl
    have h2 : splitNl (c :: (l' ++ s)) =
        match splitNl (l' ++ s) with
        | [] => [[]]
        | l :: ls => if c = '\n' then [] :: l :: ls else (c :: l) :: ls := rfl
    rw [h1, h2, splitNl_append_no_nl l' s hnl']
    cases h : splitNl s with
    | nil => exact absurd h (splitNl_ne_nil s)
    | cons a t => simp [hc]

theorem splitNl_single {l : Str} (h : '\n' ∉ l) : splitNl l = [l] := by
  have h1 := splitNl_append_no_nl l [] h
  simpa [splitNl] using h1

theorem splitNl_joinNl : ∀ ls : List Str, ls ≠ [] → (∀ l ∈ ls, '\n' ∉ l) →
    splitNl (joinNl ls) = ls
  | [], h, _ => absurd rfl h
  | [l], _, hnl => by
    simp only [joinNl]
    exact splitNl_single (hnl l (List.mem_cons_self _ _))
  | l :: l2 :: ls, _, hnl => by
    have hj : joinNl (l :: l2 :: ls) = l ++ '\n' :: joinNl (l2 :: ls) := rfl
    rw [hj, splitNl_append_no_nl l _ (hnl l (List.mem_cons_self _ _))]
    have hrest : splitNl ('\n' :: joinNl (l2 :: ls)) =
        [] :: splitNl (joinNl (l2 :: ls)) := by
      have h2 : splitNl ('\n' :: joinNl (l2 :: ls)) =
          match splitNl (joinNl (l2 :: ls)) with
          | [] => [[]]
          | a :: t => if '\n' = '\n' then [] :: a :: t else ('\n' :: a) :: t := rfl
      rw [h2]
      cases h : splitNl (joinNl (l2 :: ls)) with
      | nil => exact absurd h (splitNl_ne_nil _)
      | cons a t => simp
    rw [hrest, splitNl_joinNl (l2 :: ls) (by simp)
      (fun x hx => hnl x (List.mem_cons_of_mem _ hx))]
    simp

theorem splitFirst_not_mem {c : Char} : ∀ s : Str, c ∉ s →
    splitFirst c s = none
  | [], _ => rfl
  | a :: t, h => by
    have ha : a ≠ c := fun he => h (he ▸ List.mem_cons_self _ _)
    simp only [splitFirst]
    rw [if_neg ha, splitFirst_not_mem t (fun hm => h (List.mem_cons_of_mem _ hm))]

theorem splitFirst_append {c : Char} : ∀ u : Str, c ∉ u → ∀ rest : Str,
    splitFirst c (u ++ c :: rest) = some (u, rest)
  | [], _, rest => by simp [splitFirst]
  | a :: u', h, rest => by
    have ha : a ≠ c := fun he => h (he ▸ List.mem_cons_self _ _)
    have h1 : (a :: u') ++ c :: rest = a :: (u' ++ c :: rest) := rfl
    have h2 : splitFirst c (a :: (u' ++ c :: rest)) =
        if a = c then some ([], u' ++ c :: rest)
        else
          match splitFirst c (u' ++ c :: rest) with
          | none => none
          | some (x, y) => some (a :: x, y) := rfl
    rw [h1, h2, if_neg ha,
      splitFirst_append u' (fun hm => h (List.mem_cons_of_mem _ hm)) rest]

theorem renderRec_eq (r : CacheRec) :
    renderRec r = r.url ++ '\t' :: (r.expiry ++
      (if r.status = [] then [] else '\t' :: r.status)) := by
  unfold renderRec
  rw [List.append_assoc, List.cons_append]

theorem no_nl_renderRec {r : CacheRec} (hu : '\n' ∉ r.url)
    (he : '\n' ∉ r.expiry) (hs : '\n' ∉ r.status) : '\n' ∉ renderRec r := by
  rw [renderRec_eq]
  intro hmem
  rcases List.mem_append.mp hmem with h | h
  · exact hu h
  · rcases List.mem_cons.mp h with h | h
    · exact absurd h (by decide)
    · rcases List.mem_append.mp h with h | h
      · exact he h
      · by_cases hst : r.status = []
        · rw [hst] at h
          simp at h
        · rw [if_neg hst] at h
          rcases List.mem_cons.mp h with h | h
          · exact absurd h (by decide)
          · exact hs h

theorem parseCacheLine_renderRec {r : CacheRec} (hu : goodField r.url)
    (he : goodField r.expiry) (hs : goodField r.status) :
    parseCacheLine (renderRec r) = (r.url, r.expiry, r.status) := by
  rw [renderRec_eq]
  unfold parseCacheLine
  rw [splitFirst_append r.url hu.1]
  by_cases hst : r.status = []
  · rw [if_pos hst, List.append_nil]
    simp only
    rw [splitFirst_not_mem r.expiry he.1]
    simp only [hu.2.2, he.2.2, hst]
  · rw [if_neg hst]
    simp only
    rw [splitFirst_append r.expiry he.1]
    simp only [hu.2.2, he.2.2, hs.2.2]

theorem tab_mem_renderRec (r : CacheRec) : '\t' ∈ renderRec r := by
  rw [renderRec_eq]
  exact List.mem_append.mpr (Or.inr (List.mem_cons_self _ _))

theorem dictGet_none_iff : ∀ (m : Cache) (k : Str),
    dictGet m k = none ↔ ∀ e ∈ m, e.1 ≠ k
  | [], k => by simp [dictGet]
  | e :: t, k => by
    simp only [dictGet]
    by_cases he : e.1 = k
    · simp [he]
    · rw [if_neg he, dictGet_none_iff t k]
      constructor
      · intro h x hx
        rcases List.mem_cons.mp hx with rfl | hx'
        · exact he
        · exact h x hx'
      · intro h x hx
        exact h x (List.mem_cons_of_mem _ hx)

theorem dictSet_fresh {m : Cache} {k : Str} (h : dictGet m k = none)
    (v : Str × Str) : dictSet m k v = m ++ [(k, v)] := by
  unfold dictSet
  rw [if_neg]
  simp only [List.any_eq_true, not_exists, not_and]
  intro e he
  simp only [decide_eq_true_eq]
  exact (dictGet_none_iff m k).mp h e he

theorem dictGet_append_left {m m' : Cache} {k : Str} (h : dictGet m k = none) :
    dictGet (m ++ m') k = dictGet m' k := by
  induction m with
  | nil => simp
  | cons e t ih =>
    simp only [dictGet] at h
    by_cases he : e.1 = k
    · rw [if_pos he] at h; cases h
    · rw [if_neg he] at h
      simp only [List.cons_append, dictGet, if_neg he]
      exact ih h

theorem dictGet_map_of_nodup : ∀ (rs : List CacheRec) (r : CacheRec),
    (rs.map (·.url)).Nodup → r ∈ rs →
    dictGet (rs.map (fun r => (r.url, r.expiry, r.status))) r.url =
      some (r.expiry, r.status)
  | [], r, _, h => absurd h (by simp)
  | x :: rs', r, hnd, hmem => by
    have hnd' : (x.url :: rs'.map (·.url)).Nodup := by simpa using hnd
    simp only [List.map_cons, dictGet]
    rcases List.mem_cons.mp hmem with rfl | hmem'
    · rw [if_pos rfl]
    · have hne : x.url ≠ r.url := by
        intro he
        have hm : r.url ∈ rs'.map (·.url) := List.mem_map_of_mem _ hmem'
        rw [← he] at hm
        exact (List.nodup_cons.mp hnd').1 hm
      rw [if_neg hne]
      exact dictGet_map_of_nodup rs' r (List.nodup_cons.mp hnd').2 hmem'

theorem load_render_fold :
    ∀ (rs : List CacheRec) (m : Cache),
      (∀ r ∈ rs, goodField r.url ∧ goodField r.expiry ∧ goodField r.status) →
      (∀ r ∈ rs, dictGet m r.url = none) →
      (rs.map (·.url)).Nodup →
      (rs.map renderRec).foldl
        (fun m line =>
          if '\t' ∈ line then
            dictSet m (parseCacheLine line).1 (parseCacheLine line).2
          else m)
        m =
      m ++ rs.map (fun r => (r.url, r.expiry, r.status))
  | [], m, _, _, _ => by simp
  | r :: rs', m, hg, hfresh, hnd => by
    have hgr := hg r (List.mem_cons_self _ _)
    have hstep : (if '\t' ∈ renderRec r then
        dictSet m (parseCacheLine (renderRec r)).1 (parseCacheLine (renderRec r)).2
        else m) = m ++ [(r.url, r.expiry, r.status)] := by
      rw [if_pos (tab_mem_renderRec r),
        parseCacheLine_renderRec hgr.1 hgr.2.1 hgr.2.2]
      exact dictSet_fresh (hfresh r (List.mem_cons_self _ _)) _
    rw [List.map_cons, List.foldl_cons, hstep]
    have hnd' : (r.url :: rs'.map (·.url)).Nodup := by simpa using hnd
    rw [load_render_fold rs' (m ++ [(r.url, r.expiry, r.status)])
      (fun x hx => hg x (List.mem_cons_of_mem _ hx))
      (by
        intro x hx
        have hxu : x.url ≠ r.url := by
          intro he
          have hm : x.url ∈ rs'.map (·.url) := List.mem_map_of_mem _ hx
          rw [he] at hm
          exact (List.nodup_cons.mp hnd').1 hm
        rw [dictGet_append_left (hfresh x (List.mem_cons_of_mem _ hx))]
        have hne2 : ¬ (r.url = x.url) := fun hcon => hxu hcon.symm
        simp [dictGet, hne2])
      (List.nodup_cons.mp hnd').2]
    simp

theorem load_renderFile (rs : List CacheRec) (h : ValidRecs rs) :
    load_expiry_cache (renderFile rs) =
      rs.map (fun r => (r.url, r.expiry, r.status)) := by
  by_cases hne : rs = []
  · subst hne
    decide
  · unfold load_expiry_cache
    rw [h.2.2]
    have hsp : splitNl (renderFile rs) = rs.map renderRec := by
      unfold renderFile
      rw [splitNl_joinNl _ (by simpa using hne) ?_]
      intro l hl
      obtain ⟨r, hr, rfl⟩ := List.mem_map.mp hl
      have hg := h.1 r hr
      exact no_nl_renderRec hg.1.2.1 hg.2.1.2.1 hg.2.2.2.1
    rw [hsp, load_render_fold rs [] h.1 (by intro r _; rfl) h.2.1]
    simp

theorem save_of_map (rs : List CacheRec)
    (_hg : ∀ r ∈ rs, goodField r.url ∧ goodField r.expiry ∧ goodField r.status)
    (hnd : (rs.map (·.url)).Nodup) :
    save_expiry_cache (rs.map (fun r => (r.url, r.expiry, r.status))) =
      joinNl ((stableSortBy (fun a b => lexLe a.url b.url) rs).map renderRec) := by
  unfold save_expiry_cache
  have hkeys : (rs.map (fun r => (r.url, r.expiry, r.status))).map (·.1) =
      rs.map (·.url) := by
    rw [List.map_map]
    rfl
  rw [hkeys,
    stableSortBy_map (fun a b => lexLe a.url b.url) lexLe (·.url)
      (fun a b => rfl) rs,
    List.map_map]
  congr 1
  refine List.map_congr_left ?_
  intro r hr
  have hr' : r ∈ rs :=
    (stableSortBy_perm (fun a b => lexLe a.url b.url) rs).subset hr
  simp only [Function.comp]
  rw [dictGet_map_of_nodup rs r hnd hr']
  rfl

/-- C6: for every valid cache file (one record per line, tab-separated
`url`, `expiry` and optional used-status with stripped, tab- and newline-free
fields, distinct URLs, the used field omitted when empty, and no surrounding
whitespace), applying `save_expiry_cache` to the result of
`load_expiry_cache` leaves the set of lines unchanged up to reordering:
save always rewrites the full mapping sorted by URL. -/
theorem C6_cache_round_trip (rs : List CacheRec) (h : ValidRecs rs) :
    (splitNl (save_expiry_cache (load_expiry_cache (renderFile rs)))).Perm
      (splitNl (renderFile rs)) := by
  by_cases hne : rs = []
  · subst hne
    decide
  · rw [load_renderFile rs h, save_of_map rs h.1 h.2.1]
    have hsorted := stableSortBy_perm (fun a b => lexLe a.url b.url) rs
    have hnl : ∀ l ∈ (stableSortBy (fun a b => lexLe a.url b.url) rs).map renderRec,
        '\n' ∉ l := by
      intro l hl
      obtain ⟨r, hr, rfl⟩ := List.mem_map.mp hl
      have hg := h.1 r (hsorted.subset hr)
      exact no_nl_renderRec hg.1.2.1 hg.2.1.2.1 hg.2.2.2.1
    have hnonnil : (stableSortBy (fun a b => lexLe a.url b.url) rs).map renderRec ≠ [] := by
      intro hx
      have hlen := congrArg List.length hx
      rw [List.length_map, hsorted.length_eq] at hlen
      exact hne (List.eq_nil_of_length_eq_zero hlen)
    rw [splitNl_joinNl _ hnonnil hnl]
    have hfile : splitNl (renderFile rs) = rs.map renderRec := by
      unfold renderFile
      rw [splitNl_joinNl _ (by simpa using hne) ?_]
      intro l hl
      obtain ⟨r, hr, rfl⟩ := List.mem_map.mp hl
      have hg := h.1 r hr
      exact no_nl_renderRec hg.1.2.1 hg.2.1.2.1 hg.2.2.2.1
    rw [hfile]
    exact hsorted.map renderRec

/-- Witness for C6 at a concrete two-record file stored out of URL order. -/
theorem C6_cache_round_trip_witness :
    ValidRecs
      [⟨"u2".data, "2025.01.01".data, []⟩, ⟨"u1".data, [], "已兌換".data⟩] ∧
    (splitNl (save_expiry_cache (load_expiry_cache (renderFile
      [⟨"u2".data, "2025.01.01".data, []⟩, ⟨"u1".data, [], "已兌換".data⟩])))).Perm
      (splitNl (renderFile
        [⟨"u2".data, "2025.01.01".data, []⟩, ⟨"u1".data, [], "已兌換".data⟩])) :=
  ⟨by decide, C6_cache_round_trip _ (by decide)⟩

/-! ### Claims C7 and C9: enrichment effects and invariants -/

theorem dictGet_append_some {m : Cache} {u : Str}
    (h : (dictGet m u).isSome = true) (m' : Cache) :
    dictGet (m ++ m') u = dictGet m u := by
  induction m with
  | nil => simp [dictGet] at h
  | cons e t ih =>
    simp only [dictGet] at h ⊢
    by_cases he : e.1 = u
    · simp only [List.cons_append, dictGet, if_pos he]
    · rw [if_neg he] at h
      simp only [List.cons_append, dictGet, if_neg he]
      exact ih h

theorem dictGet_map_update_isSome (k : Str) (v : Str × Str) :
    ∀ (m : Cache) (u : Str),
      (dictGet (m.map (fun e => if e.1 = k then (k, v) else e)) u).isSome =
        (dictGet m u).isSome
  | [], u => rfl
  | e :: t, u => by
    simp only [List.map_cons, dictGet]
    by_cases he : e.1 = k
    · rw [if_pos he]
      subst he
      by_cases hu : e.1 = u
      · rw [if_pos hu, if_pos hu]
        rfl
      · rw [if_neg hu, if_neg hu]
        exact dictGet_map_update_isSome e.1 v t u
    · rw [if_neg he]
      by_cases hu : e.1 = u
      · rw [if_pos hu, if_pos hu]
      · rw [if_neg hu, if_neg hu]
        exact dictGet_map_update_isSome k v t u

theorem dictSet_isSome_mono (m : Cache) (k : Str) (v : Str × Str) (u : Str)
    (h : (dictGet m u).isSome = true) :
    (dictGet (dictSet m k v) u).isSome = true := by
  unfold dictSet
  by_cases hany : m.any (fun e => e.1 = k)
  · rw [if_pos hany, dictGet_map_update_isSome]
    exact h
  · rw [if_neg hany, dictGet_append_some h]
    exact h

theorem dictGet_map_update_self : ∀ (m : Cache) (k : Str) (v : Str × Str),
    m.any (fun e => e.1 = k) = true →
    (dictGet (m.map (fun e => if e.1 = k then (k, v) else e)) k).isSome = true
  | [], k, v, h => by simp at h
  | e :: t, k, v, h => by
    simp only [List.map_cons, dictGet]
    by_cases he : e.1 = k
    · rw [if_pos he]
      simp [dictGet]
    · rw [if_neg he]
      simp only [dictGet, if_neg he]
      refine dictGet_map_update_self t k v ?_
      simp only [List.any_cons, Bool.or_eq_true] at h
      rcases h with h | h
      · exact absurd (by simpa using h) he
      · exact h

theorem dictSet_self_isSome (m : Cache) (k : Str) (v : Str × Str) :
    (dictGet (dictSet m k v) k).isSome = true := by
  unfold dictSet
  by_cases hany : m.any (fun e => e.1 = k)
  · rw [if_pos hany]
    exact dictGet_map_update_self m k v hany
  · rw [if_neg hany]
    have hnone : dictGet m k = none := by
      rw [dictGet_none_iff]
      intro e he
      simp only [List.any_eq_true, not_exists, not_and] at hany
      have h2 := hany e he
      simp only [decide_eq_true_eq] at h2
      exact h2
    rw [dictGet_append_left hnone]
    simp [dictGet]

theorem fetch_events_no_save (net : Str → Option Str) (url : Str) :
    Ev.save ∉ (fetch_voucher_info net url).2 := by
  unfold fetch_voucher_info
  by_cases h : hasSub "txp.rs".data url
  · cases hn : net url <;> simp [h, hn]
  · simp [h]

/-- Invariant maintained by the enrichment loop over a batch starting from
`(cache0, false, [])`: the cache only grows, no save event is emitted inside
the loop, the flag is false exactly as long as nothing happened, and a true
flag certifies a key that was absent initially and is present now. -/
def enrichInv (cache0 : Cache) (st : Cache × Bool × List Ev) : Prop :=
  (∀ u, (dictGet cache0 u).isSome = true → (dictGet st.1 u).isSome = true) ∧
  Ev.save ∉ st.2.2 ∧
  (st.2.1 = false → st.1 = cache0 ∧ st.2.2 = []) ∧
  (st.2.1 = true → ∃ u, dictGet cache0 u = none ∧ (dictGet st.1 u).isSome = true)

theorem enrichStep_inv (net : Str → Option Str) (force : Bool) (cache0 : Cache)
    (hforce : force = true → cache0 = []) (st : Cache × Bool × List Ev)
    (p : Prize) (h : enrichInv cache0 st) :
    enrichInv cache0 (enrichStep net force st p).1 := by
  obtain ⟨hgrow, hsave, hfalse, htrue⟩ := h
  unfold enrichStep
  cases hc : (if force then none else dictGet st.1 (stripChars p.link)) with
  | some v => exact ⟨hgrow, hsave, hfalse, htrue⟩
  | none =>
    simp only
    refine ⟨?_, ?_, ?_, ?_⟩
    · intro u hu
      exact dictSet_isSome_mono _ _ _ _ (hgrow u hu)
    · intro hmem
      rcases List.mem_append.mp hmem with hm | hm
      · rcases List.mem_append.mp hm with hm2 | hm2
        · exact hsave hm2
        · exact fetch_events_no_save net (stripChars p.link) hm2
      · simp at hm
    · intro hfa
      cases hfa
    · intro _
      refine ⟨stripChars p.link, ?_, dictSet_self_isSome _ _ _⟩
      cases hf : force with
      | true =>
        rw [hforce hf]
        rfl
      | false =>
        rw [hf] at hc
        simp only [if_neg Bool.false_ne_true] at hc
        by_contra hcon
        have hsome : (dictGet cache0 (stripChars p.link)).isSome = true := by
          cases hx : dictGet cache0 (stripChars p.link) with
          | none => exact absurd hx hcon
          | some _ => rfl
        have := hgrow _ hsome
        rw [hc] at this
        cases this

theorem enrichPrizes_inv (net : Str → Option Str) (force : Bool)
    (cache0 : Cache) (hforce : force = true → cache0 = []) :
    ∀ (ps : List Prize) (st : Cache × Bool × List Ev), enrichInv cache0 st →
      enrichInv cache0 (enrichPrizes net force st ps).1
  | [], _, h => h
  | p :: ps, st, h => by
    simp only [enrichPrizes]
    exact enrichPrizes_inv net force cache0 hforce ps _
      (enrichStep_inv net force cache0 hforce st p h)

theorem enrichRecs_inv (net : Str → Option Str) (force : Bool)
    (cache0 : Cache) (hforce : force = true → cache0 = []) :
    ∀ (recs : List SourceRec) (st : Cache × Bool × List Ev), enrichInv cache0 st →
      enrichInv cache0 (enrichRecs net force st recs).1
  | [], _, h => h
  | rec :: recs, st, h => by
    simp only [enrichRecs]
    exact enrichRecs_inv net force cache0 hforce recs _
      (enrichPrizes_inv net force cache0 hforce rec.prizes st h)

theorem enrichInv_init (cache0 : Cache) : enrichInv cache0 (cache0, false, []) :=
  ⟨fun _ h => h, by simp, fun _ => ⟨rfl, rfl⟩, fun h => by cases h⟩

theorem enrichPrizes_all_hit (net : Str → Option Str) :
    ∀ (ps : List Prize) (c : Cache) (u : Bool) (e : List Ev),
      (∀ p ∈ ps, (dictGet c (stripChars p.link)).isSome = true) →
      (enrichPrizes net false (c, u, e) ps).1 = (c, u, e)
  | [], _, _, _, _ => rfl
  | p :: ps, c, u, e, h => by
    simp only [enrichPrizes]
    cases hv : dictGet c (stripChars p.link) with
    | none =>
      have hp := h p (List.mem_cons_self _ _)
      rw [hv] at hp
      cases hp
    | some v =>
      have hstep : (enrichStep net false (c, u, e) p).1 = (c, u, e) := by
        unfold enrichStep
        rw [if_neg (by simp : ¬ (false = true)), hv]
      rw [hstep]
      exact enrichPrizes_all_hit net ps c u e
        (fun q hq => h q (List.mem_cons_of_mem _ hq))

theorem enrichRecs_all_hit (net : Str → Option Str) :
    ∀ (recs : List SourceRec) (c : Cache) (u : Bool) (e : List Ev),
      (∀ rec ∈ recs, ∀ p ∈ rec.prizes,
        (dictGet c (stripChars p.link)).isSome = true) →
      (enrichRecs net false (c, u, e) recs).1 = (c, u, e)
  | [], _, _, _, _ => rfl
  | rec :: recs, c, u, e, h => by
    simp only [enrichRecs]
    rw [enrichPrizes_all_hit net rec.prizes c u e
      (h rec (List.mem_cons_self _ _))]
    exact enrichRecs_all_hit net recs c u e
      (fun r hr => h r (List.mem_cons_of_mem _ hr))

/-- C7: the enrichment batch (non-forced) persists the cache at most once,
the save always comes last in the trace and implies the in-memory mapping
differs from the loaded one; when every prize URL is already cached, no save
happens and the mapping is exactly the loaded cache. -/
theorem C7_cache_persistence (net : Str → Option Str) (cacheFile : Str)
    (entries : List SourceRec) :
    (((enrich_prizes_with_expiry net cacheFile entries false).2.2).countP
        (· == Ev.save) ≤ 1) ∧
    (Ev.save ∈ (enrich_prizes_with_expiry net cacheFile entries false).2.2 →
      ((enrich_prizes_with_expiry net cacheFile entries false).2.2).getLast? =
        some Ev.save ∧
      (enrich_prizes_with_expiry net cacheFile entries false).2.1 ≠
        load_expiry_cache cacheFile) ∧
    ((∀ rec ∈ entries, ∀ p ∈ rec.prizes,
        (dictGet (load_expiry_cache cacheFile) (stripChars p.link)).isSome = true) →
      Ev.save ∉ (enrich_prizes_with_expiry net cacheFile entries false).2.2 ∧
      (enrich_prizes_with_expiry net cacheFile entries false).2.1 =
        load_expiry_cache cacheFile) := by
  have hI := enrichRecs_inv net false (load_expiry_cache cacheFile)
    (by intro h; cases h) entries
    (load_expiry_cache cacheFile, false, [])
    (enrichInv_init _)
  obtain ⟨hgrow, hsave, hfalse, htrue⟩ := hI
  unfold enrich_prizes_with_expiry
  rw [if_neg (by simp : ¬ (false = true))]
  dsimp only
  refine ⟨?_, ?_, ?_⟩
  · cases hupd : (enrichRecs net false
        (load_expiry_cache cacheFile, false, []) entries).1.2.1 with
    | false =>
      rw [if_neg (by simp : ¬ (false = true))]
      rw [(hfalse hupd).2]
      simp
    | true =>
      rw [if_pos (rfl : true = true)]
      rw [List.countP_append]
      have hz : ((enrichRecs net false
          (load_expiry_cache cacheFile, false, []) entries).1.2.2).countP
          (· == Ev.save) = 0 := by
        rw [List.countP_eq_zero]
        intro a ha
        simp only [beq_iff_eq, decide_eq_true_eq]
        intro he
        exact hsave (he ▸ ha)
      rw [hz]
      simp
  · intro hmem
    cases hupd : (enrichRecs net false
        (load_expiry_cache cacheFile, false, []) entries).1.2.1 with
    | false =>
      rw [hupd, if_neg (by simp : ¬ (false = true))] at hmem
      exact absurd hmem hsave
    | true =>
      rw [hupd, if_pos (rfl : true = true)] at hmem
      rw [if_pos (rfl : true = true)]
      constructor
      · exact List.getLast?_concat _
      · obtain ⟨u0, hu0n, hu0s⟩ := htrue hupd
        intro heq
        rw [heq, hu0n] at hu0s
        cases hu0s
  · intro hall
    have hres := enrichRecs_all_hit net entries (load_expiry_cache cacheFile)
      false [] hall
    rw [hres]
    simp

/-- A fully annotated prize relative to a cache: expiry and used are present
strings and the stripped URL is a cache key. -/
def prizeDone (c : Cache) (p : Prize) : Prop :=
  p.expiry.isSome = true ∧ p.used.isSome = true ∧
    (dictGet c (stripChars p.link)).isSome = true

theorem enrichStep_cache_mono (net : Str → Option Str) (force : Bool)
    (st : Cache × Bool × List Ev) (p : Prize) (u : Str)
    (h : (dictGet st.1 u).isSome = true) :
    (dictGet (enrichStep net force st p).1.1 u).isSome = true := by
  unfold enrichStep
  cases hc : (if force then none else dictGet st.1 (stripChars p.link)) with
  | some v => exact h
  | none => exact dictSet_isSome_mono _ _ _ _ h

theorem enrichStep_done (net : Str → Option Str) (force : Bool)
    (st : Cache × Bool × List Ev) (p : Prize) :
    prizeDone (enrichStep net force st p).1.1 (enrichStep net force st p).2 := by
  unfold enrichStep
  cases hc : (if force then none else dictGet st.1 (stripChars p.link)) with
  | some v =>
    obtain ⟨e, s⟩ := v
    refine ⟨rfl, rfl, ?_⟩
    cases hf : force with
    | true =>
      rw [hf] at hc
      simp at hc
    | false =>
      rw [hf] at hc
      rw [if_neg (by simp : ¬ (false = true))] at hc
      show (dictGet st.1 (stripChars p.link)).isSome = true
      rw [hc]
      rfl
  | none =>
    exact ⟨rfl, rfl, dictSet_self_isSome _ _ _⟩

theorem enrichPrizes_done (net : Str → Option Str) (force : Bool) :
    ∀ (ps : List Prize) (st : Cache × Bool × List Ev),
      (∀ u, (dictGet st.1 u).isSome = true →
        (dictGet (enrichPrizes net force st ps).1.1 u).isSome = true) ∧
      (∀ p' ∈ (enrichPrizes net force st ps).2,
        prizeDone (enrichPrizes net force st ps).1.1 p')
  | [], st => ⟨fun _ h => h, by simp [enrichPrizes]⟩
  | p :: ps, st => by
    simp only [enrichPrizes]
    obtain ⟨ihmono, ihdone⟩ :=
      enrichPrizes_done net force ps (enrichStep net force st p).1
    refine ⟨?_, ?_⟩
    · intro u hu
      exact ihmono u (enrichStep_cache_mono net force st p u hu)
    · intro p' hp
      rcases List.mem_cons.mp hp with rfl | hp'
      · obtain ⟨h1, h2, h3⟩ := enrichStep_done net force st p
        exact ⟨h1, h2, ihmono _ h3⟩
      · exact ihdone p' hp'

theorem enrichRecs_done (net : Str → Option Str) (force : Bool) :
    ∀ (recs : List SourceRec) (st : Cache × Bool × List Ev),
      (∀ u, (dictGet st.1 u).isSome = true →
        (dictGet (enrichRecs net force st recs).1.1 u).isSome = true) ∧
      (∀ rec' ∈ (enrichRecs net force st recs).2, ∀ p' ∈ rec'.prizes,
        prizeDone (enrichRecs net force st recs).1.1 p')
  | [], st => ⟨fun _ h => h, by simp [enrichRecs]⟩
  | rec :: recs, st => by
    simp only [enrichRecs]
    obtain ⟨pmono, pdone⟩ := enrichPrizes_done net force rec.prizes st
    obtain ⟨ihmono, ihdone⟩ :=
      enrichRecs_done net force recs (enrichPrizes net force st rec.prizes).1
    refine ⟨?_, ?_⟩
    · intro u hu
      exact ihmono u (pmono u hu)
    · intro rec' hr p' hp
      rcases List.mem_cons.mp hr with rfl | hr'
      · obtain ⟨h1, h2, h3⟩ := pdone p' hp
        exact ⟨h1, h2, ihmono _ h3⟩
      · exact ihdone rec' hr' p' hp

/-- C9: after enrichment (any mode), every prize of every returned record has
present (string-valued) expiry and used fields — an absent fetch result was
coerced to the empty string — and its stripped URL is a key of the final
in-memory cache, including non-domain URLs and failed fetches. -/
theorem C9_enrichment_totality (net : Str → Option Str) (cacheFile : Str)
    (entries : List SourceRec) (force : Bool) :
    ∀ rec' ∈ (enrich_prizes_with_expiry net cacheFile entries force).1,
      ∀ p' ∈ rec'.prizes,
        p'.expiry.isSome = true ∧ p'.used.isSome = true ∧
        (dictGet ((enrich_prizes_with_expiry net cacheFile entries force).2.1)
          (stripChars p'.link)).isSome = true := by
  intro rec' hrec p' hp
  exact (enrichRecs_done net force entries
    ((if force then [] else load_expiry_cache cacheFile), false, [])).2
    rec' hrec p' hp

/-- Witness for C7: a batch whose only URL is already in the cache file
produces no save event and leaves the mapping equal to the loaded cache. -/
theorem C7_cache_persistence_witness :
    (∀ rec ∈ [(⟨"f".data, "d".data,
        [⟨"1".data, "1".data, "T".data, "t".data, "http://txp.rs/a".data,
          none, none⟩]⟩ : SourceRec)],
      ∀ p ∈ SourceRec.prizes rec,
        (dictGet (load_expiry_cache "http://txp.rs/a\t2025.01.01".data)
          (stripChars (Prize.link p))).isSome = true) ∧
    (Ev.save ∉ (enrich_prizes_with_expiry (fun _ => none)
        "http://txp.rs/a\t2025.01.01".data
        [⟨"f".data, "d".data,
          [⟨"1".data, "1".data, "T".data, "t".data, "http://txp.rs/a".data,
            none, none⟩]⟩] false).2.2 ∧
      (enrich_prizes_with_expiry (fun _ => none)
        "http://txp.rs/a\t2025.01.01".data
        [⟨"f".data, "d".data,
          [⟨"1".data, "1".data, "T".data, "t".data, "http://txp.rs/a".data,
            none, none⟩]⟩] false).2.1 =
        load_expiry_cache "http://txp.rs/a\t2025.01.01".data) :=
  ⟨by decide, (C7_cache_persistence _ _ _).2.2 (by decide)⟩

/-- Witness for C9: a single non-domain prize with an empty cache is
annotated with empty strings and recorded in the mapping. -/
theorem C9_enrichment_totality_witness :
    ((⟨"f".data, "d".data, [⟨"1".data, "1".data, "T".data, "t".data, "u".data,
        some [], some []⟩]⟩ : SourceRec) ∈
      (enrich_prizes_with_expiry (fun _ => none) [] [⟨"f".data, "d".data,
        [⟨"1".data, "1".data, "T".data, "t".data, "u".data, none, none⟩]⟩]
        false).1) ∧
    ((⟨"1".data, "1".data, "T".data, "t".data, "u".data, some [], some []⟩ :
        Prize) ∈
      (⟨"f".data, "d".data, [⟨"1".data, "1".data, "T".data, "t".data, "u".data,
        some [], some []⟩]⟩ : SourceRec).prizes) ∧
    ((⟨"1".data, "1".data, "T".data, "t".data, "u".data, some [], some []⟩ :
        Prize).expiry.isSome = true ∧
      (⟨"1".data, "1".data, "T".data, "t".data, "u".data, some [], some []⟩ :
        Prize).used.isSome = true ∧
      (dictGet ((enrich_prizes_with_expiry (fun _ => none) []
          [⟨"f".data, "d".data, [⟨"1".data, "1".data, "T".data, "t".data,
            "u".data, none, none⟩]⟩] false).2.1)
        (stripChars (⟨"1".data, "1".data, "T".data, "t".data, "u".data,
          some [], some []⟩ : Prize).link)).isSome = true) :=
  ⟨by decide, by decide,
    C9_enrichment_totality (fun _ => none) []
      [⟨"f".data, "d".data, [⟨"1".data, "1".data, "T".data, "t".data, "u".data,
        none, none⟩]⟩] false
      ⟨"f".data, "d".data, [⟨"1".data, "1".data, "T".data, "t".data, "u".data,
        some [], some []⟩]⟩ (by decide)
      ⟨"1".data, "1".data, "T".data, "t".data, "u".data, some [], some []⟩
      (by decide)⟩

/-! ### Claim C8: halt when no section matches -/

theorem collect_fold_no_marker :
    ∀ (files : List (Str × Option Str)) (acc : List SourceRec),
      (∀ f ∈ files, ∀ c, f.2 = some c → hasSub markerS c = false) →
      files.foldl
        (fun acc f =>
          match f.2 with
          | none => acc
          | some content =>
            match parse_telegram_section content with
            | none => acc
            | some (sd, ps) => acc ++ [⟨f.1, sd, ps⟩]) acc = acc
  | [], _, _ => rfl
  | f :: fs, acc, h => by
    simp only [List.foldl_cons]
    have hstep :
        (match f.2 with
          | none => acc
          | some content =>
            match parse_telegram_section content with
            | none => acc
            | some (sd, ps) => acc ++ [⟨f.1, sd, ps⟩]) = acc := by
      cases hf : f.2 with
      | none => rfl
      | some c =>
        have hm := h f (List.mem_cons_self _ _) c hf
        simp only
        unfold parse_telegram_section
        rw [if_neg (by simp [hm])]
    rw [hstep]
    exact collect_fold_no_marker fs acc
      (fun g hg => h g (List.mem_cons_of_mem _ hg))

theorem collect_nil_of_no_marker (files : List (Str × Option Str))
    (h : ∀ f ∈ files, ∀ c, f.2 = some c → hasSub markerS c = false) :
    collect_all_prizes files = [] := by
  unfold collect_all_prizes
  exact collect_fold_no_marker files [] h

/-- C8: when no readable source file contains the section marker the main
flow halts before writing any of the three artifacts (the event trace is
empty); a file whose section is present but contributes zero well-formed
items still counts as matched — the concrete marker-only file yields one
record with an empty prize list and the run still writes all three
artifacts. -/
theorem C8_halt_on_no_sections :
    (∀ (files : List (Str × Option Str)) (net : Str → Option Str)
        (cacheFile : Str) (skipFetch force : Bool),
      (∀ f ∈ files, ∀ c, f.2 = some c → hasSub markerS c = false) →
      mainRun files net cacheFile skipFetch force = []) ∧
    collect_all_prizes [("a.txt".data, some (markerS ++ "\njunk".data))] =
      [⟨"a.txt".data, [], []⟩] ∧
    mainRun [("a.txt".data, some (markerS ++ "\njunk".data))] (fun _ => none)
      [] false false = [Ev.writeHtml, Ev.writeCoupon, Ev.writeTxt] := by
  refine ⟨?_, by decide, by decide⟩
  intro files net cacheFile skipFetch force h
  have hcol := collect_nil_of_no_marker files h
  simp [mainRun, hcol]

/-- Witness for C8's halt clause at a concrete marker-free file set. -/
theorem C8_halt_on_no_sections_witness :
    (∀ f ∈ [("a.txt".data, some "hello world".data)], ∀ c : Str,
      f.2 = some c → hasSub markerS c = false) ∧
    mainRun [("a.txt".data, some "hello world".data)] (fun _ => none)
      [] false false = [] :=
  ⟨by decide, C8_halt_on_no_sections.1 _ (fun _ => none) [] false false (by decide)⟩

/-! ### Claim C4: the send-date cases -/

theorem prefixEq_hasSub {L : Str} : ∀ s : Str, prefixEq L s = true →
    hasSub L s = true
  | [], h => by
    cases L with
    | nil => rfl
    | cons a t => simp [prefixEq] at h
  | c :: t, h => by
    simp [hasSub, h]

theorem prefixEq_append_right {L : Str} : ∀ (x r : Str),
    prefixEq L x = true → prefixEq L (x ++ r) = true := by
  induction L with
  | nil => intro x r _; rfl
  | cons a L' ih =>
    intro x r h
    cases x with
    | nil => simp [prefixEq] at h
    | cons b t =>
      simp only [prefixEq, Bool.and_eq_true] at h
      simp only [List.cons_append, prefixEq, Bool.and_eq_true]
      exact ⟨h.1, ih t r h.2⟩

theorem mrun_seq_lit_none {L : Str} (r : RE)
    (k : Str → List Str → Option (List Str × Str)) (gs : List Str) (s : Str)
    (h : prefixEq L s = false) : mrun (.seq (.lit L) r) s k gs = none := by
  show mrun (.lit L) s (fun s' gs' => mrun r s' k gs') gs = none
  unfold mrun
  rw [h]
  simp

theorem reSearch_lit_none {L : Str} (r : RE) : ∀ s : Str, hasSub L s = false →
    reSearch (.seq (.lit L) r) s = none
  | [], h => by
    have hpre : prefixEq L [] = false := by
      cases hp : prefixEq L []
      · rfl
      · rw [prefixEq_hasSub [] hp] at h
        cases h
    simp only [reSearch]
    exact mrun_seq_lit_none r _ _ [] hpre
  | c :: t, h => by
    have hpre : prefixEq L (c :: t) = false := by
      cases hp : prefixEq L (c :: t)
      · rfl
      · rw [prefixEq_hasSub (c :: t) hp] at h
        cases h
    have ht : hasSub L t = false := by
      simp only [hasSub, Bool.or_eq_false_iff] at h
      exact h.2
    simp only [reSearch]
    rw [mrun_seq_lit_none r _ _ (c :: t) hpre]
    exact reSearch_lit_none r t ht

theorem hasSub_fromSub {n m : Str} : ∀ s : Str,
    hasSub n (fromSub m s) = true → hasSub n s = true
  | [], h => h
  | c :: t, h => by
    rw [show fromSub m (c :: t) =
        if prefixEq m (c :: t) then c :: t else fromSub m t from rfl] at h
    by_cases hp : prefixEq m (c :: t) = true
    · rw [if_pos hp] at h
      exact h
    · rw [if_neg hp] at h
      have := hasSub_fromSub t h
      simp [hasSub, this]

theorem beforeSub_append {m : Str} : ∀ s : Str,
    ∃ rest, s = beforeSub m s ++ rest
  | [] => ⟨[], rfl⟩
  | c :: t => by
    rw [show beforeSub m (c :: t) =
        if prefixEq m (c :: t) then [] else c :: beforeSub m t from rfl]
    by_cases hp : prefixEq m (c :: t) = true
    · rw [if_pos hp]
      exact ⟨c :: t, rfl⟩
    · rw [if_neg hp]
      obtain ⟨r, hr⟩ := beforeSub_append t
      exact ⟨r, by rw [List.cons_append, ← hr]⟩

theorem hasSub_append_right {n : Str} : ∀ (x r : Str),
    hasSub n x = true → hasSub n (x ++ r) = true
  | [], r, h => by
    cases n with
    | nil => cases r <;> simp [hasSub, prefixEq]
    | cons a t => simp [hasSub] at h
  | c :: t, r, h => by
    simp only [hasSub, Bool.or_eq_true] at h
    rcases h with h | h
    · simp only [List.cons_append, hasSub, Bool.or_eq_true]
      exact Or.inl (prefixEq_append_right _ r h)
    · simp only [List.cons_append, hasSub, Bool.or_eq_true]
      exact Or.inr (hasSub_append_right t r h)

theorem hasSub_beforeSub {n m : Str} (s : Str)
    (h : hasSub n (beforeSub m s) = true) : hasSub n s = true := by
  obtain ⟨r, hr⟩ := beforeSub_append (m := m) s
  rw [hr]
  exact hasSub_append_right _ r h

/-- C4 (amended): sendDate is absent exactly when the section marker is
missing; when the marker is present but the send-date label occurs nowhere,
sendDate is the empty string (not absent, contrary to the original claim);
when the label has a value on its line the value is returned trimmed; and
when the label's value is empty the regex skips the line break, so the next
text run becomes the send date instead of the empty string. -/
theorem C4_sendDate_cases :
    (∀ content : Str, hasSub markerS content = false →
      parse_telegram_section content = none) ∧
    (∀ content : Str, hasSub markerS content = true →
      hasSub "發送日期:".data content = false →
      ∃ ps, parse_telegram_section content = some ([], ps)) ∧
    parse_telegram_section (markerS ++ "\n發送日期: 2025-01-02  \nx".data) =
      some ("2025-01-02".data, []) ∧
    parse_telegram_section (markerS ++ "\n發送日期:\nabc".data) =
      some ("abc".data, []) := by
  refine ⟨?_, ?_, by decide, by decide⟩
  · intro content hm
    unfold parse_telegram_section
    rw [if_neg (by simp [hm])]
  · intro content hm hl
    unfold parse_telegram_section
    rw [if_pos (by simp [hm])]
    have hlb : hasSub "發送日期:".data
        (beforeSub endMarkerS (fromSub markerS content)) = false := by
      cases hx : hasSub "發送日期:".data
          (beforeSub endMarkerS (fromSub markerS content))
      · rfl
      · have h1 := hasSub_beforeSub (m := endMarkerS) _ hx
        have h2 := hasSub_fromSub (m := markerS) _ h1
        rw [h2] at hl
        cases hl
    have hre : reSearch sendDateRE
        (beforeSub endMarkerS (fromSub markerS content)) = none := by
      show reSearch (.seq (.lit "發送日期:".data)
        (cat [.wsStar, .grpPlusLazy noNlCls, .alt (.lit "\n".data) .dollar])) _ = none
      exact reSearch_lit_none _ _ hlb
    rw [hre]
    exact ⟨_, rfl⟩

/-- Witness for C4's universally quantified clauses at concrete inputs. -/
theorem C4_sendDate_cases_witness :
    (hasSub markerS "nothing here".data = false ∧
      parse_telegram_section "nothing here".data = none) ∧
    (hasSub markerS (markerS ++ "\nhello".data) = true ∧
      hasSub "發送日期:".data (markerS ++ "\nhello".data) = false ∧
      ∃ ps, parse_telegram_section (markerS ++ "\nhello".data) = some ([], ps)) :=
  ⟨⟨by decide, C4_sendDate_cases.1 _ (by decide)⟩,
   ⟨by decide, by decide, C4_sendDate_cases.2.1 _ (by decide) (by decide)⟩⟩

/-- C4 counterexample: a section whose marker is present but whose send-date
label line is missing entirely yields the empty string as sendDate — a
present value, not the absence the claim requires. -/
theorem C4_label_missing_not_absent :
    hasSub "發送日期:".data (markerS ++ "\nhello".data) = false ∧
    parse_telegram_section (markerS ++ "\nhello".data) = some ([], []) :=
  ⟨by decide, by decide⟩
